import Mathlib

/-!
Verification of the docker-compose version-resolution and tag-rewriting
pipeline of this repository.  The Python sources are shallowly embedded:
strings are `List Char`, Python dicts are association lists with
insert-overwrite semantics, regular-expression matches are structural
decompositions of lines, and `packaging.version.parse` is modelled on the
release-only fragment of PEP 440 actually exercised by these scripts.
-/

set_option maxRecDepth 10000

abbrev Str := List Char

/-- Characters the Python regex class `\s` matches (ASCII). -/
def pyWs (c : Char) : Bool :=
  c = ' ' || c = '\t' || c = '\n' || c = '\r' || c = '\x0b' || c = '\x0c'

/-- Characters the Python regex class `\w` matches (ASCII fragment). -/
def pyWord (c : Char) : Bool :=
  c.isAlpha || c.isDigit || c = '_'

/-- Greedy span: longest prefix of characters satisfying `p`, plus the rest.
Models a greedy regex token such as `\s+` or `\d+` (the scripts' patterns
never need backtracking into these tokens). -/
def spanP (p : Char → Bool) : Str → Str × Str
  | [] => ([], [])
  | c :: rest =>
    if p c then
      let s := spanP p rest
      (c :: s.1, s.2)
    else ([], c :: rest)

theorem spanP_append_all {p : Char → Bool} {xs : Str} (h : xs.all p) (ys : Str) :
    spanP p (xs ++ ys) = (xs ++ (spanP p ys).1, (spanP p ys).2) := by
  induction xs with
  | nil => simp
  | cons c cs ih =>
    simp only [List.all_cons, Bool.and_eq_true] at h
    simp only [List.cons_append, spanP, h.1, if_pos]
    simp [ih h.2]

theorem spanP_split (p : Char → Bool) (l : Str) :
    l = (spanP p l).1 ++ (spanP p l).2 := by
  induction l with
  | nil => simp [spanP]
  | cons c rest ih =>
    by_cases h : p c = true
    · simp only [spanP, h, if_pos]
      simpa using ih
    · simp [spanP, h]

theorem spanP_all (p : Char → Bool) (l : Str) : (spanP p l).1.all p = true := by
  induction l with
  | nil => simp [spanP]
  | cons c rest ih =>
    by_cases h : p c = true
    · simp [spanP, h, ih]
    · simp [spanP, h]

theorem spanP_rest_head (p : Char → Bool) (l : Str) {c : Char} {t : Str}
    (h : (spanP p l).2 = c :: t) : p c = false := by
  induction l with
  | nil => simp [spanP] at h
  | cons a rest ih =>
    by_cases ha : p a = true
    · simp only [spanP, ha, if_pos] at h
      exact ih h
    · simp only [spanP, ha, if_neg, Bool.false_eq_true, not_false_iff] at h
      cases h
      simpa using ha

/-- Split a string at its last colon: `image.rsplit(":", 1)` when the string
contains a colon (`none` models the `":" in image` test failing). -/
def rsplitColon : Str → Option (Str × Str)
  | [] => none
  | c :: rest =>
    match rsplitColon rest with
    | some (a, b) => some (c :: a, b)
    | none => if c = ':' then some ([], rest) else none

theorem rsplitColon_no_colon {s : Str} (h : ':' ∉ s) : rsplitColon s = none := by
  induction s with
  | nil => rfl
  | cons c rest ih =>
    have hc : c ≠ ':' := fun hc => h (hc ▸ List.mem_cons_self c rest)
    have hr : ':' ∉ rest := fun hr => h (List.mem_cons_of_mem _ hr)
    simp only [rsplitColon, ih hr]
    simp [hc]

theorem rsplitColon_last {a b : Str} (h : ':' ∉ b) :
    rsplitColon (a ++ ':' :: b) = some (a, b) := by
  induction a with
  | nil =>
    simp only [List.nil_append, rsplitColon, rsplitColon_no_colon h]
    simp
  | cons c a' ih =>
    simp only [List.cons_append, rsplitColon, List.append_eq, ih]

/-- Python dict assignment `d[k] = v` on an association list: replace the
binding in place if the key is present, otherwise append at the end. -/
def dinsert {κ β : Type} [DecidableEq κ] (k : κ) (v : β) : List (κ × β) → List (κ × β)
  | [] => [(k, v)]
  | (k', v') :: rest =>
    if k' = k then (k, v) :: rest else (k', v') :: dinsert k v rest

/-- Python dict lookup `d[k]` / `k in d` on an association list. -/
def lookupA {κ β : Type} [DecidableEq κ] (k : κ) : List (κ × β) → Option β
  | [] => none
  | (k', v) :: rest => if k' = k then some v else lookupA k rest

theorem lookupA_dinsert {κ β : Type} [DecidableEq κ] (k k' : κ) (v : β)
    (d : List (κ × β)) :
    lookupA k (dinsert k' v d) = if k = k' then some v else lookupA k d := by
  induction d with
  | nil =>
    by_cases h : k = k'
    · subst h
      simp [dinsert, lookupA]
    · have h2 : ¬k' = k := fun hh => h hh.symm
      simp [dinsert, lookupA, h, h2]
  | cons p rest ih =>
    obtain ⟨a, b⟩ := p
    by_cases ha : a = k'
    · subst ha
      by_cases hk : k = a
      · subst hk
        simp [dinsert, lookupA]
      · have hak : ¬a = k := fun hh => hk hh.symm
        simp [dinsert, lookupA, hk, hak]
    · by_cases hk : a = k
      · subst hk
        simp [dinsert, lookupA, ha, fun hh : a = k' => ha hh]
      · simp [dinsert, lookupA, ha, hk, ih]

theorem dinsert_ne_nil {κ β : Type} [DecidableEq κ] (k : κ) (v : β)
    (d : List (κ × β)) : dinsert k v d ≠ [] := by
  cases d with
  | nil => simp [dinsert]
  | cons p rest =>
    obtain ⟨a, b⟩ := p
    by_cases h : a = k <;> simp [dinsert, h]

theorem mem_dinsert {κ β : Type} [DecidableEq κ] {k : κ} {v : β}
    {d : List (κ × β)} {q : κ × β} (h : q ∈ dinsert k v d) :
    q = (k, v) ∨ q ∈ d := by
  induction d with
  | nil => simpa [dinsert] using h
  | cons p rest ih =>
    obtain ⟨a, b⟩ := p
    by_cases ha : a = k
    · subst ha
      simp only [dinsert, if_pos rfl] at h
      rcases List.mem_cons.mp h with h1 | h2
      · exact Or.inl h1
      · exact Or.inr (List.mem_cons_of_mem _ h2)
    · simp only [dinsert, if_neg ha] at h
      rcases List.mem_cons.mp h with h1 | h2
      · exact Or.inr (h1 ▸ List.mem_cons_self _ _)
      · rcases ih h2 with h3 | h4
        · exact Or.inl h3
        · exact Or.inr (List.mem_cons_of_mem _ h4)

/-- Comparison key of a PEP 440 release: trailing zero components are
dropped (as `packaging`'s `_cmpkey` does), so `1.2` and `1.2.0` compare
and hash equal. -/
abbrev VKey := List Nat

def stripTrailingZeros (l : List Nat) : List Nat :=
  (l.reverse.dropWhile (· = 0)).reverse

/-- Accumulating scanner behind `versionParse`: `cur` is the value of the
release component being read, `seen` whether it has at least one digit,
`acc` the previous components in reverse order. -/
def relGo : Str → Nat → Bool → List Nat → Option (List Nat)
  | [], cur, seen, acc => if seen then some ((cur :: acc).reverse) else none
  | c :: rest, cur, seen, acc =>
    if c = '.' then
      if seen then relGo rest 0 false (cur :: acc) else none
    else if c.isDigit then
      relGo rest (10 * cur + (c.toNat - 48)) true acc
    else none

/-- Model of `packaging.version.parse`, restricted to the release-only
fragment of PEP 440 these scripts feed it (`N(.N)*`); every other string is
treated as raising `InvalidVersion`, i.e. `none`.  The result is the
comparison key (release with trailing zeros stripped). -/
def versionParse (s : Str) : Option VKey :=
  (relGo s 0 false []).map stripTrailingZeros

/-- Strict comparison of release keys: lexicographic on the components,
a strict prefix being smaller — exactly Python's tuple comparison on the
stripped release tuples. -/
def vkLt : VKey → VKey → Bool
  | [], [] => false
  | [], _ :: _ => true
  | _ :: _, [] => false
  | a :: as, b :: bs => if a < b then true else if b < a then false else vkLt as bs

theorem vkLt_irrefl (a : VKey) : vkLt a a = false := by
  induction a with
  | nil => rfl
  | cons x xs ih => simp [vkLt, ih]

theorem vkLt_trans {a b c : VKey} (h1 : vkLt a b = true) (h2 : vkLt b c = true) :
    vkLt a c = true := by
  induction a generalizing b c with
  | nil =>
    cases b with
    | nil => simp [vkLt] at h1
    | cons y ys =>
      cases c with
      | nil => simp [vkLt] at h2
      | cons z zs => simp [vkLt]
  | cons x xs ih =>
    cases b with
    | nil => simp [vkLt] at h1
    | cons y ys =>
      cases c with
      | nil => simp [vkLt] at h2
      | cons z zs =>
        simp only [vkLt] at h1 h2 ⊢
        by_cases hxy : x < y
        · by_cases hyz : y < z
          · have : x < z := lt_trans hxy hyz
            simp [this]
          · by_cases hzy : z < y
            · simp [hyz, hzy] at h2
            · have hyzeq : y = z := le_antisymm (not_lt.mp hzy) (not_lt.mp hyz)
              subst hyzeq
              simp [hxy]
        · by_cases hyx : y < x
          · simp [hxy, hyx] at h1
          · have hxyeq : x = y := le_antisymm (not_lt.mp hyx) (not_lt.mp hxy)
            subst hxyeq
            rw [if_neg (lt_irrefl x), if_neg (lt_irrefl x)] at h1
            by_cases hyz : x < z
            · simp [hyz]
            · by_cases hzy : z < x
              · simp [hyz, hzy] at h2
              · have hxz : x = z := le_antisymm (not_lt.mp hzy) (not_lt.mp hyz)
                subst hxz
                rw [if_neg (lt_irrefl x), if_neg (lt_irrefl x)] at h2 ⊢
                exact ih h1 h2

theorem vkLt_total {a b : VKey} (h : a ≠ b) :
    vkLt a b = true ∨ vkLt b a = true := by
  induction a generalizing b with
  | nil =>
    cases b with
    | nil => exact absurd rfl h
    | cons y ys => left; simp [vkLt]
  | cons x xs ih =>
    cases b with
    | nil => right; simp [vkLt]
    | cons y ys =>
      by_cases hxy : x < y
      · left; simp [vkLt, hxy]
      · by_cases hyx : y < x
        · right; simp [vkLt, hyx]
        · have hxyeq : x = y := le_antisymm (not_lt.mp hyx) (not_lt.mp hxy)
          subst hxyeq
          have hne : xs ≠ ys := fun hh => h (hh ▸ rfl)
          rcases ih hne with h1 | h1
          · left; simp [vkLt, h1]
          · right; simp [vkLt, h1]

theorem vkLt_asymm {a b : VKey} (h : vkLt a b = true) : vkLt b a = false := by
  by_cases hb : vkLt b a = true
  · have := vkLt_trans h hb
    rw [vkLt_irrefl a] at this
    exact absurd this (by simp)
  · simpa using hb

/-- Consume `\d+\.` — a nonempty greedy digit run followed by a literal dot —
returning the rest, as the anchored regexes of the scripts do. -/
def eatDigitsDot (u : Str) : Option Str :=
  if (spanP Char.isDigit u).1.isEmpty then none
  else
    match (spanP Char.isDigit u).2 with
    | c :: r' => if c = '.' then some r' else none
    | [] => none

/-- Drop one leading `v` if present (the `v?` of the version regexes, and the
`startswith('v')` strip of `parse_version_str`). -/
def stripV (t : Str) : Str :=
  match t with
  | 'v' :: r => r
  | _ => t

/-- Embedding of `is_semantic_version` from version_number_collector.py:
`re.match(r'^v?(\d+)\.(\d+)\.(\d+)([-+].*)?$', tag)` as a Boolean. -/
def is_semantic_version (t : Str) : Bool :=
  match eatDigitsDot (stripV t) with
  | none => false
  | some r1 =>
    match eatDigitsDot r1 with
    | none => false
    | some r2 =>
      if (spanP Char.isDigit r2).1.isEmpty then false
      else
        match (spanP Char.isDigit r2).2 with
        | [] => true
        | c :: _ => c = '-' || c = '+'

/-- Test for `re.match(r'^v?(\d+\.\d+\.\d+.*)', tag)` succeeding (the body of
the collector's `parse_version` before handing the group to the version
library). -/
def hasSemNumPrefix (u : Str) : Bool :=
  match eatDigitsDot u with
  | none => false
  | some r1 =>
    match eatDigitsDot r1 with
    | none => false
    | some r2 => !(spanP Char.isDigit r2).1.isEmpty

/-- Embedding of `parse_version` from version_number_collector.py: strip a
leading `v`, require a `\d+\.\d+\.\d+` prefix, then hand the whole remainder
to the version library (modelled by `versionParse`). -/
def parse_version (t : Str) : Option VKey :=
  let u := stripV t
  if hasSemNumPrefix u then versionParse u else none

/-- The fallback patterns of `find_latest_version`:
`^(\d+)\.(\d+)$` or `^(\d+)$` (bare numeric tags). -/
def isNumericTag (t : Str) : Bool :=
  if (spanP Char.isDigit t).1.isEmpty then false
  else
    match (spanP Char.isDigit t).2 with
    | [] => true
    | c :: r2 =>
      c = '.' && (!(spanP Char.isDigit r2).1.isEmpty && (spanP Char.isDigit r2).2.isEmpty)

/-- Key function of the semantic pass of `find_latest_version`: a tag
contributes to the version-keyed dict iff it matches the semantic pattern
and parses. -/
def semKey (t : Str) : Option VKey :=
  if is_semantic_version t then parse_version t else none

/-- Key function of the numeric fallback pass: bare numeric tags parsed with
the version library directly. -/
def numKey (t : Str) : Option VKey :=
  if isNumericTag t then versionParse t else none

/-- The dict-building loop of `find_latest_version` (either pass): iterate
the tags in order, keying each successfully parsed tag by its parsed
version; a later tag with an equal key overwrites the earlier one. -/
def buildDict (key : Str → Option VKey) (tags : List Str) : List (VKey × Str) :=
  tags.foldl
    (fun d t =>
      match key t with
      | some k => dinsert k t d
      | none => d)
    []

/-- `max(dict.keys())`: fold of Python's binary max over the keys in
insertion order. -/
def maxKey : List (VKey × Str) → VKey
  | [] => []
  | q :: rest => rest.foldl (fun cur p => if vkLt cur p.1 then p.1 else cur) q.1

/-- Embedding of `find_latest_version` from version_number_collector.py. -/
def find_latest_version (tags : List Str) : Option Str :=
  if tags.isEmpty then none
  else
    let sv := buildDict semKey tags
    if sv.isEmpty then
      let nv := buildDict numKey tags
      if nv.isEmpty then none else lookupA (maxKey nv) nv
    else lookupA (maxKey sv) sv

/-- The last tag of `tags` whose key is `k` (the binding such a key holds
after all overwrites). -/
def lastKeyed (key : Str → Option VKey) (tags : List Str) (k : VKey) : Option Str :=
  match tags with
  | [] => none
  | t :: ts =>
    match lastKeyed key ts k with
    | some r => some r
    | none => if key t = some k then some t else none

theorem buildDict_fold_lookup (key : Str → Option VKey) (tags : List Str)
    (d : List (VKey × Str)) (k : VKey) :
    lookupA k (tags.foldl
      (fun d t => match key t with | some k' => dinsert k' t d | none => d) d) =
      match lastKeyed key tags k with
      | some r => some r
      | none => lookupA k d := by
  induction tags generalizing d with
  | nil => simp [lastKeyed]
  | cons t ts ih =>
    simp only [List.foldl_cons, lastKeyed]
    rw [ih]
    cases hlast : lastKeyed key ts k with
    | some r => simp
    | none =>
      simp only
      cases hkt : key t with
      | none =>
        have : ¬(none : Option VKey) = some k := by simp
        simp [this]
      | some k' =>
        rw [lookupA_dinsert]
        by_cases hk : k = k'
        · subst hk
          simp
        · have : ¬(some k' = some k) := by
            simp
            exact fun hh => hk hh.symm
          simp [hk, this]

theorem lookupA_buildDict (key : Str → Option VKey) (tags : List Str) (k : VKey) :
    lookupA k (buildDict key tags) = lastKeyed key tags k := by
  unfold buildDict
  rw [buildDict_fold_lookup]
  cases lastKeyed key tags k <;> simp [lookupA]

theorem lastKeyed_none_iff (key : Str → Option VKey) (tags : List Str) (k : VKey) :
    lastKeyed key tags k = none ↔ ∀ t ∈ tags, key t ≠ some k := by
  induction tags with
  | nil => simp [lastKeyed]
  | cons t ts ih =>
    simp only [lastKeyed]
    constructor
    · intro h u hu
      cases hlast : lastKeyed key ts k with
      | some r => rw [hlast] at h; simp at h
      | none =>
        rw [hlast] at h
        simp only at h
        rcases List.mem_cons.mp hu with h1 | h2
        · subst h1
          intro hkey
          rw [if_pos hkey] at h
          simp at h
        · exact (ih.mp hlast) u h2
    · intro h
      have hts : lastKeyed key ts k = none :=
        ih.mpr fun u hu => h u (List.mem_cons_of_mem _ hu)
      rw [hts]
      simp only
      rw [if_neg (h t (List.mem_cons_self _ _))]

theorem lastKeyed_some_spec {key : Str → Option VKey} {tags : List Str} {k : VKey}
    {r : Str} (h : lastKeyed key tags k = some r) :
    ∃ pre post, tags = pre ++ r :: post ∧ key r = some k ∧
      ∀ u ∈ post, key u ≠ some k := by
  induction tags with
  | nil => simp [lastKeyed] at h
  | cons t ts ih =>
    simp only [lastKeyed] at h
    cases hlast : lastKeyed key ts k with
    | some r' =>
      rw [hlast] at h
      simp only [Option.some.injEq] at h
      subst h
      obtain ⟨pre, post, heq, hkey, hpost⟩ := ih hlast
      exact ⟨t :: pre, post, by rw [heq]; rfl, hkey, hpost⟩
    | none =>
      rw [hlast] at h
      simp only at h
      by_cases hkt : key t = some k
      · rw [if_pos hkt] at h
        simp only [Option.some.injEq] at h
        subst h
        exact ⟨[], ts, rfl, hkt, (lastKeyed_none_iff key ts k).mp hlast⟩
      · rw [if_neg hkt] at h
        simp at h

theorem vmax_fold_mem (rest : List (VKey × Str)) (k : VKey) :
    rest.foldl (fun cur p => if vkLt cur p.1 then p.1 else cur) k = k ∨
      rest.foldl (fun cur p => if vkLt cur p.1 then p.1 else cur) k ∈
        rest.map Prod.fst := by
  induction rest generalizing k with
  | nil => simp
  | cons p rest' ih =>
    simp only [List.foldl_cons, List.map_cons]
    by_cases h : vkLt k p.1 = true
    · rw [if_pos h]
      rcases ih p.1 with h1 | h1
      · right
        rw [h1]
        exact List.mem_cons_self _ _
      · right
        exact List.mem_cons_of_mem _ h1
    · rw [if_neg h]
      rcases ih k with h1 | h1
      · left; exact h1
      · right; exact List.mem_cons_of_mem _ h1

theorem vmax_fold_ub (rest : List (VKey × Str)) :
    ∀ k x : VKey, (x = k ∨ x ∈ rest.map Prod.fst) →
      vkLt (rest.foldl (fun cur p => if vkLt cur p.1 then p.1 else cur) k) x = false := by
  induction rest with
  | nil =>
    intro k x hx
    rcases hx with h | h
    · subst h
      simp [vkLt_irrefl]
    · simp at h
  | cons p rest' ih =>
    intro k x hx
    simp only [List.foldl_cons]
    rcases hx with hxk | hxm
    · subst hxk
      by_cases h : vkLt x p.1 = true
      · rw [if_pos h]
        have hF : vkLt (rest'.foldl (fun cur p => if vkLt cur p.1 then p.1 else cur) p.1)
            p.1 = false := ih p.1 p.1 (Or.inl rfl)
        by_cases hc : vkLt (rest'.foldl (fun cur p => if vkLt cur p.1 then p.1 else cur) p.1)
            x = true
        · have := vkLt_trans hc h
          rw [hF] at this
          exact absurd this (by simp)
        · simpa using hc
      · rw [if_neg h]
        exact ih x x (Or.inl rfl)
    · rw [List.map_cons] at hxm
      rcases List.mem_cons.mp hxm with hxp | hxm'
      · by_cases h : vkLt k p.1 = true
        · rw [if_pos h]
          exact ih p.1 x (Or.inl hxp)
        · rw [if_neg h]
          by_cases hxkeq : p.1 = k
          · exact ih k x (Or.inl (hxp.trans hxkeq))
          · rcases vkLt_total hxkeq with h1 | h1
            · have hFk : vkLt (rest'.foldl (fun cur p => if vkLt cur p.1 then p.1 else cur) k)
                  k = false := ih k k (Or.inl rfl)
              by_cases hc : vkLt (rest'.foldl
                  (fun cur p => if vkLt cur p.1 then p.1 else cur) k) x = true
              · rw [hxp] at hc
                have := vkLt_trans hc h1
                rw [hFk] at this
                exact absurd this (by simp)
              · simpa using hc
            · exact absurd h1 (by simpa using h)
      · by_cases h : vkLt k p.1 = true
        · rw [if_pos h]
          exact ih p.1 x (Or.inr hxm')
        · rw [if_neg h]
          exact ih k x (Or.inr hxm')

theorem maxKey_mem {d : List (VKey × Str)} (h : d ≠ []) :
    maxKey d ∈ d.map Prod.fst := by
  cases d with
  | nil => exact absurd rfl h
  | cons q rest =>
    simp only [maxKey, List.map_cons]
    rcases vmax_fold_mem rest q.1 with h1 | h1
    · rw [h1]
      exact List.mem_cons_self _ _
    · exact List.mem_cons_of_mem _ h1

theorem maxKey_ub {d : List (VKey × Str)} {p : VKey × Str} (hp : p ∈ d) :
    vkLt (maxKey d) p.1 = false := by
  cases d with
  | nil => simp at hp
  | cons q rest =>
    simp only [maxKey]
    rcases List.mem_cons.mp hp with h1 | h2
    · rw [h1]
      exact vmax_fold_ub rest q.1 q.1 (Or.inl rfl)
    · exact vmax_fold_ub rest q.1 p.1 (Or.inr (List.mem_map_of_mem Prod.fst h2))

theorem lookupA_isSome_of_key_mem {κ β : Type} [DecidableEq κ] {k : κ}
    {d : List (κ × β)} (h : k ∈ d.map Prod.fst) : (lookupA k d).isSome := by
  induction d with
  | nil => simp at h
  | cons p rest ih =>
    simp only [lookupA]
    by_cases hk : p.1 = k
    · obtain ⟨a, b⟩ := p
      simp only at hk
      simp [hk]
    · obtain ⟨a, b⟩ := p
      simp only at hk
      simp only [List.map_cons] at h
      rcases List.mem_cons.mp h with h1 | h2
      · exact absurd h1.symm hk
      · simp only [hk, if_false, if_neg]
        exact ih h2

theorem buildDict_nil_iff (key : Str → Option VKey) (tags : List Str) :
    buildDict key tags = [] ↔ ∀ t ∈ tags, key t = none := by
  unfold buildDict
  suffices h : ∀ d : List (VKey × Str),
      (tags.foldl (fun d t => match key t with | some k => dinsert k t d | none => d) d
        = [] ↔ d = [] ∧ ∀ t ∈ tags, key t = none) by
    rw [h []]
    simp
  intro d
  induction tags generalizing d with
  | nil => simp
  | cons t ts ih =>
    simp only [List.foldl_cons]
    cases hkt : key t with
    | none =>
      rw [ih d]
      constructor
      · rintro ⟨h1, h2⟩
        exact ⟨h1, fun u hu => by
          rcases List.mem_cons.mp hu with h3 | h4
          · subst h3; exact hkt
          · exact h2 u h4⟩
      · rintro ⟨h1, h2⟩
        exact ⟨h1, fun u hu => h2 u (List.mem_cons_of_mem _ hu)⟩
    | some k =>
      rw [ih (dinsert k t d)]
      constructor
      · rintro ⟨h1, _⟩
        exact absurd h1 (dinsert_ne_nil k t d)
      · rintro ⟨_, h2⟩
        have := h2 t (List.mem_cons_self _ _)
        rw [hkt] at this
        simp at this

theorem lookupA_some_mem {κ β : Type} [DecidableEq κ] {k : κ} {v : β}
    {d : List (κ × β)} (h : lookupA k d = some v) : (k, v) ∈ d := by
  induction d with
  | nil => simp [lookupA] at h
  | cons p rest ih =>
    obtain ⟨a, b⟩ := p
    by_cases ha : a = k
    · subst ha
      have hb : b = v := by simpa [lookupA] using h
      subst hb
      exact List.mem_cons_self _ _
    · simp only [lookupA, if_neg ha] at h
      exact List.mem_cons_of_mem _ (ih h)

theorem relGo_digits_append (ds : Str) :
    ∀ rest cur acc, ds.all Char.isDigit = true →
      ∃ cur2, relGo (ds ++ rest) cur true acc = relGo rest cur2 true acc := by
  induction ds with
  | nil =>
    intro rest cur acc _
    exact ⟨cur, rfl⟩
  | cons c ds' ih =>
    intro rest cur acc h
    simp only [List.all_cons, Bool.and_eq_true] at h
    have hdot : ¬(c = '.') := by
      intro hc
      rw [hc] at h
      simp at h
    simp only [List.cons_append, relGo, if_neg hdot, h.1, if_pos]
    exact ih rest _ acc h.2

theorem relGo_digits_start (ds : Str) (rest : Str) (cur : Nat) (acc : List Nat)
    (hne : ds ≠ []) (h : ds.all Char.isDigit = true) :
    ∃ cur2, relGo (ds ++ rest) cur false acc = relGo rest cur2 true acc := by
  cases ds with
  | nil => exact absurd rfl hne
  | cons c ds' =>
    simp only [List.all_cons, Bool.and_eq_true] at h
    have hdot : ¬(c = '.') := by
      intro hc
      rw [hc] at h
      simp at h
    simp only [List.cons_append, relGo, if_neg hdot, h.1, if_pos]
    exact relGo_digits_append ds' rest _ acc h.2

theorem numeric_versionParse_isSome {t : Str} (h : isNumericTag t = true) :
    (versionParse t).isSome = true := by
  unfold isNumericTag at h
  have hsplit := spanP_split Char.isDigit t
  have hall := spanP_all Char.isDigit t
  by_cases h1 : (spanP Char.isDigit t).1.isEmpty = true
  · rw [if_pos h1] at h
    simp at h
  · rw [if_neg h1] at h
    have hne : (spanP Char.isDigit t).1 ≠ [] := by
      intro hh
      rw [hh] at h1
      simp at h1
    cases hrest : (spanP Char.isDigit t).2 with
    | nil =>
      rw [hrest, List.append_nil] at hsplit
      unfold versionParse
      rw [hsplit, show (spanP Char.isDigit t).1 = (spanP Char.isDigit t).1 ++ [] by simp]
      obtain ⟨cur2, hc⟩ := relGo_digits_start (spanP Char.isDigit t).1 [] 0 [] hne hall
      rw [hc]
      simp [relGo]
    | cons c r2 =>
      rw [hrest] at h hsplit
      simp only [Bool.and_eq_true, Bool.not_eq_true', decide_eq_true_eq] at h
      obtain ⟨hc, hne2e, hr2e⟩ := h
      subst hc
      have hne2 : (spanP Char.isDigit r2).1 ≠ [] := by
        intro hh
        rw [hh] at hne2e
        simp at hne2e
      have hr2nil : (spanP Char.isDigit r2).2 = [] := by
        cases he : (spanP Char.isDigit r2).2 with
        | nil => rfl
        | cons x xs =>
          rw [he] at hr2e
          simp at hr2e
      have hr2 : r2 = (spanP Char.isDigit r2).1 ++ [] := by
        have := spanP_split Char.isDigit r2
        rw [hr2nil] at this
        simpa using this
      unfold versionParse
      rw [hsplit]
      obtain ⟨cur2, hstep⟩ :=
        relGo_digits_start (spanP Char.isDigit t).1 ('.' :: r2) 0 [] hne hall
      rw [hstep]
      rw [show relGo ('.' :: r2) cur2 true [] = relGo r2 0 false [cur2] from by
        simp [relGo]]
      rw [hr2]
      obtain ⟨cur3, hstep2⟩ :=
        relGo_digits_start (spanP Char.isDigit r2).1 [] 0 [cur2] hne2
          (spanP_all Char.isDigit r2)
      rw [hstep2]
      simp [relGo]

theorem semKey_some {t : Str} {v : VKey} :
    semKey t = some v ↔ is_semantic_version t = true ∧ parse_version t = some v := by
  unfold semKey
  by_cases h : is_semantic_version t = true
  · simp [h]
  · simp [h]

theorem numKey_some {t : Str} {v : VKey} :
    numKey t = some v ↔ isNumericTag t = true ∧ versionParse t = some v := by
  unfold numKey
  by_cases h : isNumericTag t = true
  · simp [h]
  · simp [h]

theorem find_latest_version_eq_semantic {tags : List Str}
    (htne : tags ≠ []) (hsv : buildDict semKey tags ≠ []) :
    find_latest_version tags =
      lookupA (maxKey (buildDict semKey tags)) (buildDict semKey tags) := by
  unfold find_latest_version
  have h1 : tags.isEmpty = false := by
    cases tags with
    | nil => exact absurd rfl htne
    | cons a l => rfl
  have h2 : (buildDict semKey tags).isEmpty = false := by
    cases hb : buildDict semKey tags with
    | nil => exact absurd hb hsv
    | cons a l => rfl
  rw [if_neg (by rw [h1]; simp), if_neg (by rw [h2]; simp)]

theorem find_latest_version_eq_numeric {tags : List Str}
    (htne : tags ≠ []) (hsv : buildDict semKey tags = [])
    (hnv : buildDict numKey tags ≠ []) :
    find_latest_version tags =
      lookupA (maxKey (buildDict numKey tags)) (buildDict numKey tags) := by
  unfold find_latest_version
  have h1 : tags.isEmpty = false := by
    cases tags with
    | nil => exact absurd rfl htne
    | cons a l => rfl
  have h2 : (buildDict semKey tags).isEmpty = true := by rw [hsv]; rfl
  have h3 : (buildDict numKey tags).isEmpty = false := by
    cases hb : buildDict numKey tags with
    | nil => exact absurd hb hnv
    | cons a l => rfl
  rw [if_neg (by rw [h1]; simp), if_pos h2, if_neg (by rw [h3]; simp)]

theorem buildDict_max_result {key : Str → Option VKey} {tags : List Str}
    (hne : buildDict key tags ≠ []) :
    ∃ r, lookupA (maxKey (buildDict key tags)) (buildDict key tags) = some r ∧
      (∃ pre post, tags = pre ++ r :: post ∧
        key r = some (maxKey (buildDict key tags)) ∧
        ∀ u ∈ post, key u ≠ some (maxKey (buildDict key tags))) ∧
      ∀ u ∈ tags, ∀ w, key u = some w →
        vkLt (maxKey (buildDict key tags)) w = false := by
  have hKmem := maxKey_mem hne
  have hlsome := lookupA_isSome_of_key_mem hKmem
  obtain ⟨r, hr⟩ := Option.isSome_iff_exists.mp hlsome
  have hlast : lastKeyed key tags (maxKey (buildDict key tags)) = some r := by
    rw [← lookupA_buildDict]
    exact hr
  refine ⟨r, hr, lastKeyed_some_spec hlast, ?_⟩
  intro u hu w hkeyu
  cases hlk : lastKeyed key tags w with
  | none =>
    have := (lastKeyed_none_iff key tags w).mp hlk u hu
    exact absurd hkeyu this
  | some x =>
    have hx : lookupA w (buildDict key tags) = some x := by
      rw [lookupA_buildDict, hlk]
    exact maxKey_ub (lookupA_some_mem hx)

/-- C6: when the tag list contains at least one tag that matches the
semantic-version pattern and parses, `find_latest_version` returns a member
of the list that itself matches and parses, and whose parsed version is
maximal under the version ordering among all such tags. -/
theorem find_latest_version_semantic_max (tags : List Str) (t0 : Str) (v0 : VKey)
    (hmem : t0 ∈ tags) (hsem : is_semantic_version t0 = true)
    (hparse : parse_version t0 = some v0) :
    ∃ r v, find_latest_version tags = some r ∧ r ∈ tags ∧
      is_semantic_version r = true ∧ parse_version r = some v ∧
      ∀ u ∈ tags, is_semantic_version u = true →
        ∀ w, parse_version u = some w → vkLt v w = false := by
  have hkey0 : semKey t0 = some v0 := semKey_some.mpr ⟨hsem, hparse⟩
  have htne : tags ≠ [] := fun h => by
    rw [h] at hmem
    simp at hmem
  have hsv : buildDict semKey tags ≠ [] := by
    intro h
    have := (buildDict_nil_iff semKey tags).mp h t0 hmem
    rw [hkey0] at this
    simp at this
  obtain ⟨r, hr, ⟨pre, post, heq, hkeyr, _⟩, hub⟩ := buildDict_max_result hsv
  obtain ⟨hsemr, hparser⟩ := semKey_some.mp hkeyr
  refine ⟨r, maxKey (buildDict semKey tags), ?_, ?_, hsemr, hparser, ?_⟩
  · rw [find_latest_version_eq_semantic htne hsv]
    exact hr
  · rw [heq]
    exact List.mem_append.mpr (Or.inr (List.mem_cons_self _ _))
  · intro u hu hsemu w hparseu
    exact hub u hu w (semKey_some.mpr ⟨hsemu, hparseu⟩)

theorem find_latest_version_semantic_max_w :
    find_latest_version ["1.2.3".data, "1.10.0".data, "1.9.9".data] =
        some "1.10.0".data ∧
    (∃ r v, find_latest_version ["1.2.3".data, "1.10.0".data, "1.9.9".data] =
        some r ∧
      r ∈ ["1.2.3".data, "1.10.0".data, "1.9.9".data] ∧
      is_semantic_version r = true ∧ parse_version r = some v ∧
      ∀ u ∈ ["1.2.3".data, "1.10.0".data, "1.9.9".data],
        is_semantic_version u = true →
        ∀ w, parse_version u = some w → vkLt v w = false) :=
  ⟨by decide,
    find_latest_version_semantic_max _ "1.2.3".data [1, 2, 3] (by decide) (by decide)
      (by decide)⟩

/-- C7: when no tag matches the semantic-version pattern,
`find_latest_version` falls back to the bare numeric tags
(`^(\d+)\.(\d+)$` or `^(\d+)$`): if some tag is numeric it returns a numeric
member whose parsed version is maximal among the numeric tags, and if no tag
matches either pattern (or the list is empty) it returns `none`. -/
theorem find_latest_version_numeric_fallback (tags : List Str)
    (hsem : ∀ t ∈ tags, is_semantic_version t = false) :
    ((∃ t0 ∈ tags, isNumericTag t0 = true) →
      ∃ r v, find_latest_version tags = some r ∧ r ∈ tags ∧
        isNumericTag r = true ∧ versionParse r = some v ∧
        ∀ u ∈ tags, isNumericTag u = true →
          ∀ w, versionParse u = some w → vkLt v w = false) ∧
    ((∀ t ∈ tags, isNumericTag t = false) → find_latest_version tags = none) := by
  have hsv : buildDict semKey tags = [] := by
    rw [buildDict_nil_iff]
    intro t ht
    unfold semKey
    rw [hsem t ht]
    simp
  constructor
  · rintro ⟨t0, hmem, hnum0⟩
    have htne : tags ≠ [] := fun h => by
      rw [h] at hmem
      simp at hmem
    obtain ⟨v0, hv0⟩ := Option.isSome_iff_exists.mp (numeric_versionParse_isSome hnum0)
    have hkey0 : numKey t0 = some v0 := numKey_some.mpr ⟨hnum0, hv0⟩
    have hnv : buildDict numKey tags ≠ [] := by
      intro h
      have := (buildDict_nil_iff numKey tags).mp h t0 hmem
      rw [hkey0] at this
      simp at this
    obtain ⟨r, hr, ⟨pre, post, heq, hkeyr, _⟩, hub⟩ := buildDict_max_result hnv
    obtain ⟨hnumr, hparser⟩ := numKey_some.mp hkeyr
    refine ⟨r, maxKey (buildDict numKey tags), ?_, ?_, hnumr, hparser, ?_⟩
    · rw [find_latest_version_eq_numeric htne hsv hnv]
      exact hr
    · rw [heq]
      exact List.mem_append.mpr (Or.inr (List.mem_cons_self _ _))
    · intro u hu hnumu w hparseu
      exact hub u hu w (numKey_some.mpr ⟨hnumu, hparseu⟩)
  · intro hnum
    cases htags : tags with
    | nil => rfl
    | cons a l =>
      rw [← htags]
      have hnv : buildDict numKey tags = [] := by
        rw [buildDict_nil_iff]
        intro t ht
        unfold numKey
        rw [hnum t ht]
        simp
      unfold find_latest_version
      have h1 : tags.isEmpty = false := by rw [htags]; rfl
      have h2 : (buildDict semKey tags).isEmpty = true := by rw [hsv]; rfl
      have h3 : (buildDict numKey tags).isEmpty = true := by rw [hnv]; rfl
      rw [if_neg (by rw [h1]; simp), if_pos h2, if_pos h3]

theorem find_latest_version_numeric_fallback_w :
    find_latest_version ["latest".data, "2.36".data, "2".data] = some "2.36".data ∧
    (∃ r v, find_latest_version ["latest".data, "2.36".data, "2".data] = some r ∧
      r ∈ ["latest".data, "2.36".data, "2".data] ∧
      isNumericTag r = true ∧ versionParse r = some v ∧
      ∀ u ∈ ["latest".data, "2.36".data, "2".data], isNumericTag u = true →
        ∀ w, versionParse u = some w → vkLt v w = false) ∧
    find_latest_version ["latest".data, "alpine".data] = none :=
  ⟨by decide,
    (find_latest_version_numeric_fallback _ (by decide)).1
      ⟨"2.36".data, by decide, by decide⟩,
    (find_latest_version_numeric_fallback ["latest".data, "alpine".data]
      (by decide)).2 (by decide)⟩

/-- C10: `find_latest_version` is a function of its input list
(determinism), and when the semantic pass applies, the returned tag is the
last list entry carrying its version key: no later entry normalizes to the
same parsed version, because later entries overwrite earlier ones in the
version-keyed dict. -/
theorem find_latest_version_last_wins :
    (∀ t1 t2 : List Str, t1 = t2 →
      find_latest_version t1 = find_latest_version t2) ∧
    (∀ tags r, (∃ t ∈ tags, (semKey t).isSome = true) →
      find_latest_version tags = some r →
      ∃ pre post, tags = pre ++ r :: post ∧ ∀ u ∈ post, semKey u ≠ semKey r) := by
  constructor
  · intro t1 t2 h
    rw [h]
  · rintro tags r ⟨t0, hmem, hkey⟩ hfind
    obtain ⟨v0, hv0⟩ := Option.isSome_iff_exists.mp hkey
    have htne : tags ≠ [] := fun h => by
      rw [h] at hmem
      simp at hmem
    have hsv : buildDict semKey tags ≠ [] := by
      intro h
      have := (buildDict_nil_iff semKey tags).mp h t0 hmem
      rw [hv0] at this
      simp at this
    obtain ⟨r', hr', ⟨pre, post, heq, hkeyr, hpost⟩, _⟩ := buildDict_max_result hsv
    rw [find_latest_version_eq_semantic htne hsv, hr'] at hfind
    have hrr : r' = r := by injection hfind
    subst hrr
    refine ⟨pre, post, heq, ?_⟩
    intro u hu
    rw [hkeyr]
    exact hpost u hu

theorem find_latest_version_last_wins_w :
    find_latest_version ["v1.2.3".data, "1.2.3".data] = some "1.2.3".data ∧
    (∃ pre post, ["v1.2.3".data, "1.2.3".data] = pre ++ "1.2.3".data :: post ∧
      ∀ u ∈ post, semKey u ≠ semKey "1.2.3".data) :=
  ⟨by decide,
    find_latest_version_last_wins.2 ["v1.2.3".data, "1.2.3".data] "1.2.3".data
      ⟨"v1.2.3".data, by decide, by decide⟩ (by decide)⟩

/-- Result record of `compare_versions` in check_docker_versions.py. -/
structure CompareResult where
  container : Str
  compose_version : Str
  latest_version : Str
  status : Str
deriving DecidableEq

/-- Embedding of `parse_version_str` from check_docker_versions.py: strip a
leading `v` and hand the rest to the version library, `none` on failure. -/
def parse_version_str (vs : Str) : Option VKey :=
  versionParse (stripV vs)

/-- One iteration of the `compare_versions` loop of check_docker_versions.py
for an entry `(container, latest_version)` of the latest-versions dict. -/
def compareStep (compose : List (Str × Str)) (p : Str × Str) : CompareResult :=
  match lookupA p.1 compose with
  | some cv =>
    if cv = "latest".data then
      ⟨p.1, cv, p.2, "UNKNOWN (using latest tag)".data⟩
    else
      match parse_version_str cv, parse_version_str p.2 with
      | some a, some b =>
        if vkLt a b then ⟨p.1, cv, p.2, "UPDATE AVAILABLE".data⟩
        else ⟨p.1, cv, p.2, "UP TO DATE".data⟩
      | _, _ => ⟨p.1, cv, p.2, "UP TO DATE".data⟩
  | none => ⟨p.1, "NOT FOUND".data, p.2, "NOT IN COMPOSE FILE".data⟩

/-- Embedding of `compare_versions` from check_docker_versions.py: iterate
the latest-versions dict in insertion order. -/
def compare_versions (compose latest : List (Str × Str)) : List CompareResult :=
  latest.map (compareStep compose)

/-- C2 counterexample: with compose version `abc` (which fails to parse) and
latest `1.2.3`, the reported status is `UP TO DATE`, not `UNKNOWN` as the
claim states for parse failures. -/
theorem compare_versions_parse_fail_not_unknown :
    parse_version_str "abc".data = none ∧
    compare_versions [("c".data, "abc".data)] [("c".data, "1.2.3".data)] =
      [⟨"c".data, "abc".data, "1.2.3".data, "UP TO DATE".data⟩] ∧
    "UP TO DATE".data ≠ "UNKNOWN".data := by
  refine ⟨by decide, by decide, by decide⟩

/-- C2 (amended): `UPDATE AVAILABLE` is reported exactly when the container
is in the compose map with a tag other than `latest`, both strings parse,
and the compose version is strictly smaller.  When either string fails to
parse (and the compose tag is not `latest`) the status is `UP TO DATE`, and
a compose tag of `latest` yields `UNKNOWN (using latest tag)`. -/
theorem compare_versions_status_spec (compose latest : List (Str × Str)) :
    compare_versions compose latest = latest.map (compareStep compose) ∧
    ∀ c lv : Str,
      ((compareStep compose (c, lv)).status = "UPDATE AVAILABLE".data ↔
        ∃ cv a b, lookupA c compose = some cv ∧ cv ≠ "latest".data ∧
          parse_version_str cv = some a ∧ parse_version_str lv = some b ∧
          vkLt a b = true) ∧
      (∀ cv, lookupA c compose = some cv → cv ≠ "latest".data →
        (parse_version_str cv = none ∨ parse_version_str lv = none) →
        (compareStep compose (c, lv)).status = "UP TO DATE".data) ∧
      (lookupA c compose = some "latest".data →
        (compareStep compose (c, lv)).status = "UNKNOWN (using latest tag)".data) := by
  refine ⟨rfl, ?_⟩
  intro c lv
  cases hl : lookupA c compose with
  | none =>
    have hs : (compareStep compose (c, lv)).status = "NOT IN COMPOSE FILE".data := by
      simp [compareStep, hl]
    refine ⟨⟨fun h => ?_, ?_⟩, fun cv hcv _ _ => ?_, fun hcv => ?_⟩
    · rw [hs] at h
      exact absurd h (by decide)
    · rintro ⟨cv, a, b, hcv, _⟩
      exact Option.noConfusion hcv
    · exact Option.noConfusion hcv
    · exact Option.noConfusion hcv
  | some cv0 =>
    by_cases hlat : cv0 = "latest".data
    · subst hlat
      have hs : (compareStep compose (c, lv)).status =
          "UNKNOWN (using latest tag)".data := by
        simp [compareStep, hl]
      refine ⟨⟨fun h => ?_, ?_⟩, fun cv hcv hne _ => ?_, fun _ => hs⟩
      · rw [hs] at h
        exact absurd h (by decide)
      · rintro ⟨cv, a, b, hcv, hne, _⟩
        injection hcv with hcv
        exact absurd hcv.symm hne
      · injection hcv with hcv
        exact absurd hcv.symm hne
    · refine ⟨⟨fun h => ?_, ?_⟩, fun cv hcv hne hfail => ?_, fun hcv => ?_⟩
      · cases hpc : parse_version_str cv0 with
        | none =>
          have hs : (compareStep compose (c, lv)).status = "UP TO DATE".data := by
            simp [compareStep, hl, hlat, hpc]
          rw [hs] at h
          exact absurd h (by decide)
        | some a =>
          cases hpl : parse_version_str lv with
          | none =>
            have hs : (compareStep compose (c, lv)).status = "UP TO DATE".data := by
              simp [compareStep, hl, hlat, hpc, hpl]
            rw [hs] at h
            exact absurd h (by decide)
          | some b =>
            by_cases hcmp : vkLt a b = true
            · exact ⟨cv0, a, b, rfl, hlat, hpc, rfl, hcmp⟩
            · have hs : (compareStep compose (c, lv)).status = "UP TO DATE".data := by
                simp [compareStep, hl, hlat, hpc, hpl, hcmp]
              rw [hs] at h
              exact absurd h (by decide)
      · rintro ⟨cv, a, b, hcv, hne, hpc, hpl, hcmp⟩
        injection hcv with hcv
        subst hcv
        simp [compareStep, hl, hlat, hpc, hpl, hcmp]
      · injection hcv with hcv
        subst hcv
        rcases hfail with hf | hf
        · simp [compareStep, hl, hlat, hf]
        · cases hpc : parse_version_str cv0 with
          | none => simp [compareStep, hl, hlat, hpc]
          | some a => simp [compareStep, hl, hlat, hpc, hf]
      · injection hcv with hcv
        exact absurd hcv hlat

theorem compare_versions_status_spec_w :
    (compareStep [("c".data, "1.2.0".data)] ("c".data, "1.3.0".data)).status =
      "UPDATE AVAILABLE".data ∧
    (compareStep [("c".data, "latest".data)] ("c".data, "1.3.0".data)).status =
      "UNKNOWN (using latest tag)".data :=
  ⟨((compare_versions_status_spec [("c".data, "1.2.0".data)] []).2
      "c".data "1.3.0".data).1.mpr
      ⟨"1.2.0".data, [1, 2], [1, 3], by decide, by decide, by decide, by decide,
        by decide⟩,
    ((compare_versions_status_spec [("c".data, "latest".data)] []).2
      "c".data "1.3.0".data).2.2 (by decide)⟩

/-- Change record of `add_version_comments` in add_version_comments.py. -/
structure AvcChange where
  service : Str
  image : Str
  version : Str
deriving DecidableEq

/-- Python's `$` matches just before a trailing newline: the variable part of
a `readlines` line that the anchored patterns actually see. -/
def dropTrailingNl (l : Str) : Str :=
  match l.getLast? with
  | some c => if c = '\n' then l.dropLast else l
  | none => l

/-- The service-definition pattern `^(\s+)(\w+):` (both scripts), returning
the captured name. -/
def avcServiceMatch (l : Str) : Option Str :=
  if (spanP pyWs l).1.isEmpty then none
  else if (spanP pyWord (spanP pyWs l).2).1.isEmpty then none
  else
    match (spanP pyWord (spanP pyWs l).2).2 with
    | c :: _ =>
      if c = ':' then some (spanP pyWord (spanP pyWs l).2).1 else none
    | [] => none

/-- The image pattern `^(\s+)image:\s+(.+)$` of add_version_comments.py,
returning the captured indent and image reference. -/
def avcImageMatch (l : Str) : Option (Str × Str) :=
  if (spanP pyWs (dropTrailingNl l)).1.isEmpty then none
  else if (spanP pyWs (dropTrailingNl l)).2.take 6 = "image:".data then
    if (spanP pyWs ((spanP pyWs (dropTrailingNl l)).2.drop 6)).1.isEmpty then none
    else if (spanP pyWs ((spanP pyWs (dropTrailingNl l)).2.drop 6)).2.isEmpty then none
    else
      some ((spanP pyWs (dropTrailingNl l)).1,
        (spanP pyWs ((spanP pyWs (dropTrailingNl l)).2.drop 6)).2)
  else none

/-- The inserted comment line `f"{indent}# Version: {version}\n"`. -/
def avcComment (ind version : Str) : Str :=
  ind ++ "# Version: ".data ++ version ++ ['\n']

/-- Repository part of an image reference: `image.rsplit(":", 1)[0]` when a
colon is present, the whole reference otherwise. -/
def avcContainer (img : Str) : Str :=
  match rsplitColon img with
  | some (c, _) => c
  | none => img

/-- `container_versions.get(container, "unknown")`. -/
def avcVersionOf (cv : List (Str × Str)) (container : Str) : Str :=
  match lookupA container cv with
  | some v => v
  | none => "unknown".data

/-- `version not in ["unknown", "latest", None]` (dict values are strings in
this embedding, so the `None` member is unrepresentable and never hit). -/
def avcUsable (v : Str) : Bool :=
  !(v = "unknown".data || v = "latest".data)

/-- What one input line contributes to the output of
`add_version_comments`: a version comment immediately before a usable image
line, otherwise the line alone. -/
def avcEmit (cv : List (Str × Str)) (l : Str) : List Str :=
  match avcImageMatch l with
  | some (ind, img) =>
    if avcUsable (avcVersionOf cv (avcContainer img)) then
      [avcComment ind (avcVersionOf cv (avcContainer img)), l]
    else [l]
  | none => [l]

/-- State update of the loop: a service-pattern match replaces
`current_service`.  (The loop's `current_indent` and
`version_comment_added` variables are assigned but never read, so they are
omitted.) -/
def avcNextState (cs : Option Str) (l : Str) : Option Str :=
  match avcServiceMatch l with
  | some n => some n
  | none => cs

/-- The line loop of `add_version_comments` from add_version_comments.py,
carrying `current_service` and accumulating output lines and change
records. -/
def avcGo (cv : List (Str × Str)) : Option Str → List Str → List Str × List AvcChange
  | _, [] => ([], [])
  | cs, l :: ls =>
    match avcImageMatch l, avcNextState cs l with
    | some (ind, img), some svc =>
      if avcUsable (avcVersionOf cv (avcContainer img)) then
        (avcComment ind (avcVersionOf cv (avcContainer img)) :: l ::
            (avcGo cv (avcNextState cs l) ls).1,
          ⟨svc, img, avcVersionOf cv (avcContainer img)⟩ ::
            (avcGo cv (avcNextState cs l) ls).2)
      else
        (l :: (avcGo cv (avcNextState cs l) ls).1, (avcGo cv (avcNextState cs l) ls).2)
    | _, _ =>
      (l :: (avcGo cv (avcNextState cs l) ls).1, (avcGo cv (avcNextState cs l) ls).2)

/-- Embedding of `add_version_comments` from add_version_comments.py. -/
def add_version_comments (lines : List Str) (cv : List (Str × Str)) :
    List Str × List AvcChange :=
  avcGo cv none lines

theorem dropTrailingNl_spec (l : Str) :
    l = dropTrailingNl l ∨ l = dropTrailingNl l ++ ['\n'] := by
  cases hgl : l.getLast? with
  | none =>
    left
    unfold dropTrailingNl
    rw [hgl]
  | some c =>
    have hd : dropTrailingNl l = if c = '\n' then l.dropLast else l := by
      unfold dropTrailingNl
      rw [hgl]
    by_cases hc : c = '\n'
    · right
      rw [hd, if_pos hc]
      subst hc
      exact (List.dropLast_append_getLast? _ (Option.mem_def.mpr hgl)).symm
    · left
      rw [hd, if_neg hc]

theorem spanP_not_head {p : Char → Bool} {c : Char} (hc : p c = false) (t : Str) :
    spanP p (c :: t) = ([], c :: t) := by
  simp [spanP, hc]

theorem avcImageMatch_inv {l ind img : Str} (h : avcImageMatch l = some (ind, img)) :
    ind = (spanP pyWs (dropTrailingNl l)).1 ∧ ind.isEmpty = false ∧
    (spanP pyWs (dropTrailingNl l)).2.take 6 = "image:".data ∧
    img = (spanP pyWs ((spanP pyWs (dropTrailingNl l)).2.drop 6)).2 := by
  unfold avcImageMatch at h
  by_cases h1 : (spanP pyWs (dropTrailingNl l)).1.isEmpty = true
  · rw [if_pos h1] at h
    exact absurd h (by simp)
  · rw [if_neg h1] at h
    by_cases h2 : (spanP pyWs (dropTrailingNl l)).2.take 6 = "image:".data
    · rw [if_pos h2] at h
      by_cases h3 : (spanP pyWs ((spanP pyWs (dropTrailingNl l)).2.drop 6)).1.isEmpty = true
      · rw [if_pos h3] at h
        exact absurd h (by simp)
      · rw [if_neg h3] at h
        by_cases h4 : (spanP pyWs ((spanP pyWs (dropTrailingNl l)).2.drop 6)).2.isEmpty = true
        · rw [if_pos h4] at h
          exact absurd h (by simp)
        · rw [if_neg h4] at h
          have h5 := Option.some.inj h
          injection h5 with ha hb
          refine ⟨ha.symm, ?_, h2, hb.symm⟩
          rw [← ha]
          simpa using h1
    · rw [if_neg h2] at h
      exact absurd h (by simp)

theorem avcImageMatch_service {l ind img : Str}
    (h : avcImageMatch l = some (ind, img)) :
    avcServiceMatch l = some "image".data := by
  obtain ⟨hind, hne, htake, _⟩ := avcImageMatch_inv h
  have hsplit := spanP_split pyWs (dropTrailingNl l)
  have hall := spanP_all pyWs (dropTrailingNl l)
  have hr1 : (spanP pyWs (dropTrailingNl l)).2 =
      "image:".data ++ (spanP pyWs (dropTrailingNl l)).2.drop 6 := by
    conv_lhs => rw [← List.take_append_drop 6 (spanP pyWs (dropTrailingNl l)).2]
    rw [htake]
  have hX : ∃ Y, l = (spanP pyWs (dropTrailingNl l)).1 ++ ("image:".data ++ Y) := by
    rcases dropTrailingNl_spec l with hc | hc
    · refine ⟨(spanP pyWs (dropTrailingNl l)).2.drop 6, ?_⟩
      conv_lhs => rw [hc, hsplit, hr1]
    · refine ⟨(spanP pyWs (dropTrailingNl l)).2.drop 6 ++ ['\n'], ?_⟩
      conv_lhs => rw [hc, hsplit, hr1]
      simp [List.append_assoc]
  obtain ⟨Y, hY⟩ := hX
  have himg : spanP pyWs ("image:".data ++ Y) = ([], "image:".data ++ Y) :=
    spanP_not_head (by decide) ("mage:".data ++ Y)
  have hspan : spanP pyWs l =
      ((spanP pyWs (dropTrailingNl l)).1, "image:".data ++ Y) := by
    conv_lhs => rw [hY]
    rw [spanP_append_all hall, himg]
    simp
  have hword : spanP pyWord ("image:".data ++ Y) = ("image".data, ':' :: Y) := by
    have h2 : spanP pyWord (':' :: Y) = ([], ':' :: Y) := spanP_not_head (by decide) Y
    show spanP pyWord ("image".data ++ (':' :: Y)) = ("image".data, ':' :: Y)
    rw [spanP_append_all (by decide), h2]
    simp
  have hne' : (spanP pyWs (dropTrailingNl l)).1.isEmpty = false := by
    rw [hind] at hne
    exact hne
  unfold avcServiceMatch
  rw [hspan]
  simp only [hword]
  simp [hne']

theorem avcGo_cons_fst (cv : List (Str × Str)) (cs : Option Str) (l : Str)
    (ls : List Str) :
    (avcGo cv cs (l :: ls)).1 =
      avcEmit cv l ++ (avcGo cv (avcNextState cs l) ls).1 := by
  cases him : avcImageMatch l with
  | none =>
    cases hns : avcNextState cs l <;> simp [avcGo, him, hns, avcEmit]
  | some p =>
    obtain ⟨ind, img⟩ := p
    have hns : avcNextState cs l = some "image".data := by
      unfold avcNextState
      rw [avcImageMatch_service him]
    by_cases hu : avcUsable (avcVersionOf cv (avcContainer img)) = true
    · simp [avcGo, him, hns, avcEmit, hu]
    · simp [avcGo, him, hns, avcEmit, hu]

theorem avcGo_fst (cv : List (Str × Str)) (cs : Option Str) (lines : List Str) :
    (avcGo cv cs lines).1 = lines.flatMap (avcEmit cv) := by
  induction lines generalizing cs with
  | nil => simp [avcGo]
  | cons l ls ih =>
    rw [avcGo_cons_fst, ih, List.flatMap_cons]

/-- Per-line characterization of the annotate-only script: the output is
the input lines in order, with a `# Version:` comment inserted immediately
before an image line exactly when `container_versions.get(container,
"unknown")` is neither `unknown` nor `latest` (the dict values are strings,
so the `None` sentinel can never be hit). -/
theorem avcEmit_spec (lines : List Str) (cv : List (Str × Str)) :
    (add_version_comments lines cv).1 = lines.flatMap (avcEmit cv) ∧
    (∀ l ind img, avcImageMatch l = some (ind, img) →
      avcEmit cv l =
        if avcUsable (avcVersionOf cv (avcContainer img)) then
          [avcComment ind (avcVersionOf cv (avcContainer img)), l]
        else [l]) ∧
    (∀ l, avcImageMatch l = none → avcEmit cv l = [l]) ∧
    (∀ cont : Str, avcUsable (avcVersionOf cv cont) = true ↔
      ∃ v, lookupA cont cv = some v ∧ v ≠ "unknown".data ∧ v ≠ "latest".data) := by
  refine ⟨avcGo_fst cv none lines, ?_, ?_, ?_⟩
  · intro l ind img h
    unfold avcEmit
    rw [h]
  · intro l h
    unfold avcEmit
    rw [h]
  · intro cont
    unfold avcVersionOf
    cases hl : lookupA cont cv with
    | none =>
      constructor
      · intro h
        exact absurd h (by decide)
      · rintro ⟨v, hv, _⟩
        exact Option.noConfusion hv
    | some v =>
      simp only [avcUsable]
      constructor
      · intro h
        refine ⟨v, rfl, ?_, ?_⟩
        · intro he
          subst he
          simp at h
        · intro he
          subst he
          simp at h
      · rintro ⟨v', hv', h1, h2⟩
        injection hv' with hv'
        subst hv'
        simp [h1, h2]

/-- Change record of `add_version_comments_and_update_tags` in
version_docker_compose.py: the dicts carry a `change_type` discriminator
and either `old_image`/`new_image` or `image`. -/
inductive VdcChange where
  | tagUpdated (service old_image new_image version : Str)
  | commentAdded (service image version : Str)
deriving DecidableEq

/-- The image pattern `^(\s+image:\s+)(.+)$` of version_docker_compose.py;
group 1 is the whole prefix through the whitespace after `image:`. -/
def vdcImageMatch (l : Str) : Option (Str × Str) :=
  if (spanP pyWs l).1.isEmpty then none
  else if (spanP pyWs l).2.take 6 = "image:".data then
    if (spanP pyWs ((spanP pyWs l).2.drop 6)).1.isEmpty then none
    else if (spanP pyWs ((spanP pyWs l).2.drop 6)).2.isEmpty then none
    else
      some ((spanP pyWs l).1 ++ "image:".data ++
          (spanP pyWs ((spanP pyWs l).2.drop 6)).1,
        (spanP pyWs ((spanP pyWs l).2.drop 6)).2)
  else none

/-- The existing-comment pattern `^\s+# Version:`. -/
def vdcVersionComment (l : Str) : Bool :=
  !(spanP pyWs l).1.isEmpty && (spanP pyWs l).2.take 10 = "# Version:".data

/-- `image.rsplit(":", 1)` with the implicit-`latest` default of
version_docker_compose.py for untagged references. -/
def vdcSplit (img : Str) : Str × Str :=
  match rsplitColon img with
  | some (c, t) => (c, t)
  | none => (img, "latest".data)

/-- `container_versions[container] not in ["unknown", "UNKNOWN", None]`
(note: unlike the annotate-only script, `latest` is not excluded here). -/
def vdcUsable (v : Str) : Bool :=
  !(v = "unknown".data || v = "UNKNOWN".data)

/-- `' ' * (len(indent_plus_image) - len('image: '))`. -/
def vdcIndent (g1 : Str) : Str :=
  List.replicate (g1.length - 7) ' '

/-- What one line of the document contributes to the rewritten line list of
`add_version_comments_and_update_tags` (for lines reached with a truthy
`current_service`, which image lines always are since they match the
service pattern themselves). -/
def vdcEmit (cv : List (Str × Str)) (ut se : Bool) (l : Str) : List Str :=
  if vdcVersionComment l && se then []
  else
    match vdcImageMatch l with
    | some (g1, img) =>
      match lookupA (vdcSplit img).1 cv with
      | some v =>
        if vdcUsable v then
          [vdcIndent g1 ++ "# Version: ".data ++ v,
            if ut && ((vdcSplit img).2 = "latest".data || (vdcSplit img).1 = img) then
              g1 ++ (vdcSplit img).1 ++ ':' :: v
            else l]
        else [l]
      | none => [l]
    | none => [l]

/-- The line loop of `add_version_comments_and_update_tags` from
version_docker_compose.py (update_tags and skip_existing as parameters,
`current_service` as state). -/
def vdcGo (cv : List (Str × Str)) (ut se : Bool) :
    Option Str → List Str → List Str × List VdcChange
  | _, [] => ([], [])
  | cs, l :: ls =>
    if vdcVersionComment l && se then
      vdcGo cv ut se (avcNextState cs l) ls
    else
      match vdcImageMatch l, avcNextState cs l with
      | some (g1, img), some svc =>
        match lookupA (vdcSplit img).1 cv with
        | some v =>
          if vdcUsable v then
            if ut && ((vdcSplit img).2 = "latest".data || (vdcSplit img).1 = img) then
              ((vdcIndent g1 ++ "# Version: ".data ++ v) ::
                  (g1 ++ (vdcSplit img).1 ++ ':' :: v) ::
                  (vdcGo cv ut se (avcNextState cs l) ls).1,
                VdcChange.tagUpdated svc img ((vdcSplit img).1 ++ ':' :: v) v ::
                  (vdcGo cv ut se (avcNextState cs l) ls).2)
            else
              ((vdcIndent g1 ++ "# Version: ".data ++ v) :: l ::
                  (vdcGo cv ut se (avcNextState cs l) ls).1,
                VdcChange.commentAdded svc img v ::
                  (vdcGo cv ut se (avcNextState cs l) ls).2)
          else
            (l :: (vdcGo cv ut se (avcNextState cs l) ls).1,
              (vdcGo cv ut se (avcNextState cs l) ls).2)
        | none =>
          (l :: (vdcGo cv ut se (avcNextState cs l) ls).1,
            (vdcGo cv ut se (avcNextState cs l) ls).2)
      | _, _ =>
        (l :: (vdcGo cv ut se (avcNextState cs l) ls).1,
          (vdcGo cv ut se (avcNextState cs l) ls).2)

/-- Helper of `splitlines`: Python `str.splitlines()` restricted to `\n`
separators (the only separator these files contain); the final segment is
emitted only if nonempty-or-unterminated, i.e. a trailing newline produces
no trailing empty line. -/
def splitlinesGo : Str → List Str
  | [] => [[]]
  | c :: rest =>
    if c = '\n' then
      if rest = [] then [[]] else [] :: splitlinesGo rest
    else
      match splitlinesGo rest with
      | s :: ss => (c :: s) :: ss
      | [] => [[c]]

/-- `content.splitlines()` (empty string gives no lines). -/
def splitlines (s : Str) : List Str :=
  match s with
  | [] => []
  | _ :: _ => splitlinesGo s

/-- `'\n'.join(lines)`. -/
def joinNl : List Str → Str
  | [] => []
  | [a] => a
  | a :: b :: rest => a ++ '\n' :: joinNl (b :: rest)

/-- Embedding of `add_version_comments_and_update_tags` from
version_docker_compose.py: split the content into lines, run the rewriting
loop, and join the new lines with newlines. -/
def add_version_comments_and_update_tags (content : Str) (cv : List (Str × Str))
    (ut se : Bool) : Str × List VdcChange :=
  (joinNl (vdcGo cv ut se none (splitlines content)).1,
    (vdcGo cv ut se none (splitlines content)).2)

theorem vdcImageMatch_inv {l g1 img : Str} (h : vdcImageMatch l = some (g1, img)) :
    g1 = (spanP pyWs l).1 ++ "image:".data ++
        (spanP pyWs ((spanP pyWs l).2.drop 6)).1 ∧
    (spanP pyWs l).1.isEmpty = false ∧
    (spanP pyWs l).2.take 6 = "image:".data ∧
    (spanP pyWs ((spanP pyWs l).2.drop 6)).1.isEmpty = false ∧
    img = (spanP pyWs ((spanP pyWs l).2.drop 6)).2 := by
  unfold vdcImageMatch at h
  by_cases h1 : (spanP pyWs l).1.isEmpty = true
  · rw [if_pos h1] at h
    exact absurd h (by simp)
  · rw [if_neg h1] at h
    by_cases h2 : (spanP pyWs l).2.take 6 = "image:".data
    · rw [if_pos h2] at h
      by_cases h3 : (spanP pyWs ((spanP pyWs l).2.drop 6)).1.isEmpty = true
      · rw [if_pos h3] at h
        exact absurd h (by simp)
      · rw [if_neg h3] at h
        by_cases h4 : (spanP pyWs ((spanP pyWs l).2.drop 6)).2.isEmpty = true
        · rw [if_pos h4] at h
          exact absurd h (by simp)
        · rw [if_neg h4] at h
          have h5 := Option.some.inj h
          injection h5 with ha hb
          exact ⟨ha.symm, by simpa using h1, h2, by simpa using h3, hb.symm⟩
    · rw [if_neg h2] at h
      exact absurd h (by simp)

theorem vdcImageMatch_service {l g1 img : Str}
    (h : vdcImageMatch l = some (g1, img)) :
    avcServiceMatch l = some "image".data := by
  obtain ⟨_, hne, htake, _, _⟩ := vdcImageMatch_inv h
  have hr1 : (spanP pyWs l).2 = "image:".data ++ (spanP pyWs l).2.drop 6 := by
    conv_lhs => rw [← List.take_append_drop 6 (spanP pyWs l).2]
    rw [htake]
  have hword : spanP pyWord ("image:".data ++ (spanP pyWs l).2.drop 6) =
      ("image".data, ':' :: (spanP pyWs l).2.drop 6) := by
    have h2 : spanP pyWord (':' :: (spanP pyWs l).2.drop 6) =
        ([], ':' :: (spanP pyWs l).2.drop 6) :=
      spanP_not_head (by decide) _
    show spanP pyWord ("image".data ++ (':' :: (spanP pyWs l).2.drop 6)) =
      ("image".data, ':' :: (spanP pyWs l).2.drop 6)
    rw [spanP_append_all (by decide), h2]
    simp
  unfold avcServiceMatch
  rw [hr1]
  simp only [hword]
  simp [hne]

theorem vdcImageMatch_g1_len {l g1 img : Str}
    (h : vdcImageMatch l = some (g1, img)) : 1 ≤ g1.length - 7 := by
  obtain ⟨hg1, hne1, _, hne2, _⟩ := vdcImageMatch_inv h
  have l1 : 1 ≤ (spanP pyWs l).1.length := by
    cases he : (spanP pyWs l).1 with
    | nil => rw [he] at hne1; simp at hne1
    | cons a t => simp
  have l2 : 1 ≤ (spanP pyWs ((spanP pyWs l).2.drop 6)).1.length := by
    cases he : (spanP pyWs ((spanP pyWs l).2.drop 6)).1 with
    | nil => rw [he] at hne2; simp at hne2
    | cons a t => simp
  rw [hg1]
  simp only [List.length_append]
  have h6 : (['i', 'm', 'a', 'g', 'e', ':'] : List Char).length = 6 := rfl
  have h6' : ("image:".data : Str).length = 6 := rfl
  omega

theorem vdcVersionComment_comment {k : Nat} (hk : 1 ≤ k) (v : Str) :
    vdcVersionComment (List.replicate k ' ' ++ "# Version: ".data ++ v) = true := by
  have hall : (List.replicate k ' ').all pyWs = true := by
    rw [List.all_eq_true]
    intro c hc
    rw [List.eq_of_mem_replicate hc]
    decide
  have hre : (List.replicate k ' ' ++ "# Version: ".data ++ v : Str) =
      List.replicate k ' ' ++ ("# Version: ".data ++ v) := by
    rw [List.append_assoc]
  have hsp : spanP pyWs (List.replicate k ' ' ++ ("# Version: ".data ++ v)) =
      (List.replicate k ' ', "# Version: ".data ++ v) := by
    rw [spanP_append_all hall]
    rw [show ("# Version: ".data ++ v : Str) = '#' :: (" Version: ".data ++ v) from rfl]
    rw [spanP_not_head (by decide)]
    simp
  unfold vdcVersionComment
  rw [hre, hsp]
  simp only
  have hne : (List.replicate k ' ').isEmpty = false := by
    cases k with
    | zero => omega
    | succ n => simp [List.replicate]
  rw [hne]
  have htk : ("# Version: ".data ++ v : Str).take 10 = "# Version:".data := by
    rw [show ("# Version: ".data ++ v : Str) =
      "# Version:".data ++ (' ' :: v) from rfl]
    rw [show (10 : Nat) = ("# Version:".data : Str).length from rfl]
    exact List.take_left _ _
  rw [htk]
  simp

theorem vdcGo_cons_fst (cv : List (Str × Str)) (ut se : Bool) (cs : Option Str)
    (l : Str) (ls : List Str) :
    (vdcGo cv ut se cs (l :: ls)).1 =
      vdcEmit cv ut se l ++ (vdcGo cv ut se (avcNextState cs l) ls).1 := by
  by_cases hvc : (vdcVersionComment l && se) = true
  · simp [vdcGo, vdcEmit, hvc]
  · cases him : vdcImageMatch l with
    | none =>
      cases hns : avcNextState cs l <;> simp [vdcGo, vdcEmit, hvc, him, hns]
    | some p =>
      obtain ⟨g1, img⟩ := p
      have hns : avcNextState cs l = some "image".data := by
        unfold avcNextState
        rw [vdcImageMatch_service him]
      cases hlk : lookupA (vdcSplit img).1 cv with
      | none => simp [vdcGo, vdcEmit, hvc, him, hns, hlk]
      | some v =>
        by_cases hu : vdcUsable v = true
        · by_cases hrep :
            (ut && ((vdcSplit img).2 = "latest".data || (vdcSplit img).1 = img)) = true
          · simp [vdcGo, vdcEmit, hvc, him, hns, hlk, hu, hrep]
          · simp [vdcGo, vdcEmit, hvc, him, hns, hlk, hu, hrep]
        · simp [vdcGo, vdcEmit, hvc, him, hns, hlk, hu]

theorem vdcGo_fst (cv : List (Str × Str)) (ut se : Bool) (cs : Option Str)
    (lines : List Str) :
    (vdcGo cv ut se cs lines).1 = lines.flatMap (vdcEmit cv ut se) := by
  induction lines generalizing cs with
  | nil => simp [vdcGo]
  | cons l ls ih =>
    rw [vdcGo_cons_fst, ih, List.flatMap_cons]

theorem vdcEmit_annotate_shape (cv : List (Str × Str)) (l : Str) :
    vdcEmit cv false true l = [l] ∨
    (vdcVersionComment l = true ∧ vdcEmit cv false true l = []) ∨
    ∃ g1 img v, vdcImageMatch l = some (g1, img) ∧
      vdcEmit cv false true l = [vdcIndent g1 ++ "# Version: ".data ++ v, l] := by
  by_cases hvc : vdcVersionComment l = true
  · right; left
    exact ⟨hvc, by simp [vdcEmit, hvc]⟩
  · cases him : vdcImageMatch l with
    | none =>
      left
      simp [vdcEmit, hvc, him]
    | some p =>
      obtain ⟨g1, img⟩ := p
      cases hlk : lookupA (vdcSplit img).1 cv with
      | none =>
        left
        simp [vdcEmit, hvc, him, hlk]
      | some v =>
        by_cases hu : vdcUsable v = true
        · right; right
          exact ⟨g1, img, v, rfl, by simp [vdcEmit, hvc, him, hlk, hu]⟩
        · left
          simp [vdcEmit, hvc, him, hlk, hu]

theorem vdcEmit_annotate_idem (cv : List (Str × Str)) (l : Str) :
    (vdcEmit cv false true l).flatMap (vdcEmit cv false true) =
      vdcEmit cv false true l := by
  rcases vdcEmit_annotate_shape cv l with h | ⟨_, h⟩ | ⟨g1, img, v, him, h⟩
  · rw [h]
    simp [h]
  · rw [h]
    simp
  · rw [h]
    have hcom : vdcEmit cv false true (vdcIndent g1 ++ "# Version: ".data ++ v) = [] := by
      have hvc : vdcVersionComment (vdcIndent g1 ++ "# Version: ".data ++ v) = true :=
        vdcVersionComment_comment (vdcImageMatch_g1_len him) v
      unfold vdcEmit
      rw [hvc]
      simp
    rw [List.flatMap_cons, List.flatMap_cons, List.flatMap_nil, hcom, h]
    simp

theorem vdc_annotate_flatMap_idem (cv : List (Str × Str)) (lines : List Str) :
    (lines.flatMap (vdcEmit cv false true)).flatMap (vdcEmit cv false true) =
      lines.flatMap (vdcEmit cv false true) := by
  induction lines with
  | nil => simp
  | cons l ls ih =>
    simp [List.flatMap_cons, List.flatMap_append, vdcEmit_annotate_idem, ih]

/-- C4 (amended): idempotence holds for the combined script's annotate-mode
rewriting loop, and only at the line level: re-running it over its own
output lines drops each previously inserted `# Version:` comment and
re-inserts exactly the same one, reproducing the line sequence, so a second
pass adds no duplicate comment lines there.  (The combined script's
whole-string function additionally normalizes the final newline away, and
the annotate-only script duplicates its comments on a second pass; see the
counterexample for both failures of the original claim.) -/
theorem vdc_annotate_loop_idem (cv : List (Str × Str)) (cs cs' : Option Str)
    (lines : List Str) :
    (vdcGo cv false true cs' (vdcGo cv false true cs lines).1).1 =
      (vdcGo cv false true cs lines).1 := by
  rw [vdcGo_fst, vdcGo_fst]
  exact vdc_annotate_flatMap_idem cv lines

/-- C4 counterexample: annotate-mode rewriting is not idempotent as claimed.
First, the annotate-only script (add_version_comments.py) never checks for
an existing comment: running it twice on a single image line inserts a
duplicate `# Version:` comment on the second pass.  Second, even the
combined script is not idempotent at the content-string level: with an
empty mapping (nothing deliberately changed), `"a\n\n"` rewrites to
`"a\n"`, and rewriting that output yields `"a"` — the trailing empty line
is lost to the `splitlines`/`'\n'.join` round trip. -/
theorem annotate_not_idempotent_cx :
    (add_version_comments ["    image: redis:latest\n".data]
        [("redis".data, "7.4.0".data)]).1 =
      ["    # Version: 7.4.0\n".data, "    image: redis:latest\n".data] ∧
    (add_version_comments
        (add_version_comments ["    image: redis:latest\n".data]
          [("redis".data, "7.4.0".data)]).1
        [("redis".data, "7.4.0".data)]).1 =
      ["    # Version: 7.4.0\n".data, "    # Version: 7.4.0\n".data,
        "    image: redis:latest\n".data] ∧
    (["    # Version: 7.4.0\n".data, "    # Version: 7.4.0\n".data,
        "    image: redis:latest\n".data] ≠
      ["    # Version: 7.4.0\n".data, "    image: redis:latest\n".data]) ∧
    (add_version_comments_and_update_tags "a\n\n".data [] false true).1 =
      "a\n".data ∧
    (add_version_comments_and_update_tags
        (add_version_comments_and_update_tags "a\n\n".data [] false true).1
        [] false true).1 = "a".data ∧
    ("a".data : Str) ≠ "a\n".data := by
  refine ⟨by decide, by decide, by decide, by decide, by decide, by decide⟩

/-- Change record of `update_versions` in update_compose_versions.py. -/
structure UVChange where
  service : Str
  old_image : Str
  new_image : Str
deriving DecidableEq

/-- Head of the remainder after the matched image is whitespace or line end:
the `(\s|$)` boundary of the substitution pattern. -/
def wsBoundary : Str → Bool
  | [] => true
  | c :: _ => pyWs c

/-- At a scan position: `image:` followed by a nonempty whitespace run, the
escaped image literally, and a whitespace-or-line-end boundary — the
`image:\s+<image>(\s|$)` tail of the substitution pattern.  Returns the
consumed `image:<ws+>` prefix and the remainder after the image. -/
def imageAt (old s : Str) : Option (Str × Str) :=
  if s.take 6 = "image:".data then
    if (spanP pyWs (s.drop 6)).1.isEmpty = true then none
    else if (spanP pyWs (s.drop 6)).2.take old.length = old then
      if wsBoundary ((spanP pyWs (s.drop 6)).2.drop old.length) = true then
        some ("image:".data ++ (spanP pyWs (s.drop 6)).1,
          (spanP pyWs (s.drop 6)).2.drop old.length)
      else none
    else none
  else none

/-- Left-to-right scan of one line for
`re.sub(f"(\\s+image:\\s+){re.escape(image)}(\\s|$)", f"\\1{new_image}\\2", content)`
on the newline-joined document.  A match may start anywhere a whitespace
character precedes `image:` — the line's indent, an interior space (so a
commented-out `# image:` line is matched too), or the newline before the
line (`prevWs` starts true; the file's very first line, never an image line
in a compose file, is not distinguished).  The first occurrence in the line
is replaced; compose lines contain at most one. -/
def subLineGo (old new : Str) : Bool → Str → Str
  | _, [] => []
  | prevWs, c :: rest =>
    if prevWs then
      match imageAt old (c :: rest) with
      | some (consumed, restAfter) => consumed ++ new ++ restAfter
      | none => c :: subLineGo old new (pyWs c) rest
    else c :: subLineGo old new (pyWs c) rest

def subImageLine (old new l : Str) : Str :=
  subLineGo old new true l

/-- The global substitution over the whole document, line by line. -/
def subImage (old new : Str) (lines : List Str) : List Str :=
  lines.map (subImageLine old new)

/-- `container_versions[container] not in ["latest", "UNKNOWN", None]` of
update_compose_versions.py (values are strings here, so `None` is
unrepresentable). -/
def uvSentinelOk (v : Str) : Bool :=
  !(v = "latest".data || v = "UNKNOWN".data)

def startsWithV : Str → Bool
  | 'v' :: _ => true
  | _ => false

/-- `tag in ["alpine", "latest-full", "latest-cuda"] and not tag.startswith("v")`. -/
def uvDenyTag (tag : Str) : Bool :=
  (decide (tag = "alpine".data) || decide (tag = "latest-full".data) ||
    decide (tag = "latest-cuda".data)) && !startsWithV tag

/-- One iteration of the service loop of `update_versions` from
update_compose_versions.py, threading the document content (as lines) and
the accumulated change records. -/
def update_step (cv : List (Str × Str)) (st : List Str × List UVChange)
    (svc : Str × Option Str) : List Str × List UVChange :=
  match svc.2 with
  | none => st
  | some image =>
    match rsplitColon image with
    | some (container, tag) =>
      match lookupA container cv with
      | some ver =>
        if uvSentinelOk ver = true then
          if uvDenyTag tag = true then st
          else if tag.any Char.isDigit = true ∧ tag ≠ "latest".data then st
          else
            (subImage image (container ++ ':' :: ver) st.1,
              st.2 ++ [⟨svc.1, image, container ++ ':' :: ver⟩])
        else st
      | none => st
    | none =>
      match lookupA image cv with
      | some ver =>
        if uvSentinelOk ver = true then
          (subImage image (image ++ ':' :: ver) st.1,
            st.2 ++ [⟨svc.1, image, image ++ ':' :: ver⟩])
        else st
      | none => st

/-- Embedding of `update_versions` from update_compose_versions.py.
`content` is the raw document as its list of lines; `services` is the
structurally parsed `yaml_data["services"]` as an association list of
service name to optional image value. -/
def update_versions (content : List Str) (services : List (Str × Option Str))
    (cv : List (Str × Str)) : List Str × List UVChange :=
  services.foldl (update_step cv) (content, [])

/-- Strip one pair of surrounding double quotes, as YAML scalar quoting
does. -/
def stripQuotes (s : Str) : Str :=
  match s with
  | '"' :: rest =>
    match rest.getLast? with
    | some c => if c = '"' then rest.dropLast else s
    | none => s
  | _ => s

def trimWs (s : Str) : Str :=
  ((s.dropWhile pyWs).reverse.dropWhile pyWs).reverse

/-- A two-space-indented `name:` line opening a service definition. -/
def pcSvcHeader (l : Str) : Option Str :=
  match l with
  | ' ' :: ' ' :: rest =>
    if (spanP pyWord rest).1.isEmpty then none
    else if (spanP pyWord rest).2 = [':'] then some (spanP pyWord rest).1 else none
  | _ => none

/-- A four-space-indented `image: <value>` line (value unquoted as YAML
does). -/
def pcImageProp (l : Str) : Option Str :=
  match l with
  | ' ' :: ' ' :: ' ' :: ' ' :: rest =>
    if rest.take 6 = "image:".data then some (stripQuotes (trimWs (rest.drop 6)))
    else none
  | _ => none

/-- Worker of `parseCompose`: the accumulator holds the services seen so far
in reverse order, the current service at its head. -/
def pcGo : Bool → List (Str × Option Str) → List Str → List (Str × Option Str)
  | _, acc, [] => acc.reverse
  | inSv, acc, l :: ls =>
    if l = "services:".data then pcGo true acc ls
    else
      match l with
      | [] => pcGo inSv acc ls
      | c :: _ =>
        if pyWs c then
          if inSv then
            match pcSvcHeader l with
            | some name => pcGo inSv ((name, none) :: acc) ls
            | none =>
              match pcImageProp l, acc with
              | some v, (nm, _) :: acc' => pcGo inSv ((nm, some v) :: acc') ls
              | _, _ => pcGo inSv acc ls
          else pcGo inSv acc ls
        else pcGo false acc ls

/-- Models `yaml.safe_load` restricted to the compose-file shape these
scripts consume: a top-level `services:` block, two-space-indented service
names, four-space-indented `image:` values with optional double quoting;
other lines are ignored and another unindented key ends the block (inline
comments and other YAML features are outside the model). -/
def parseCompose (lines : List Str) : List (Str × Option Str) :=
  pcGo false [] lines

/-- Embedding of `extract_container_versions` from check_docker_versions.py:
structurally parse the document and map each image's repository to its tag,
`latest` when the reference has no colon. -/
def extract_container_versions (lines : List Str) : List (Str × Str) :=
  (parseCompose lines).foldl
    (fun m p =>
      match p.2 with
      | some img =>
        match rsplitColon img with
        | some (c, t) => dinsert c t m
        | none => dinsert img "latest".data m
      | none => m)
    []

/-- C9: every parser and rewriter splits an image reference at its LAST
colon (`rsplit(":", 1)`): the repository is everything before it and the
tag everything after, a reference without a colon getting the implicit tag
`latest`; hence the untagged reference `registry:5000/app` (registry host
with port) parses as repository `registry` with tag `5000/app`. -/
theorem rsplit_last_colon_spec :
    (∀ a b : Str, ':' ∉ b → rsplitColon (a ++ ':' :: b) = some (a, b)) ∧
    (∀ s : Str, ':' ∉ s → rsplitColon s = none) ∧
    rsplitColon "registry:5000/app".data =
      some ("registry".data, "5000/app".data) ∧
    extract_container_versions
        ["services:".data, "  app:".data, "    image: registry:5000/app".data] =
      [("registry".data, "5000/app".data)] ∧
    extract_container_versions
        ["services:".data, "  app:".data, "    image: redis".data] =
      [("redis".data, "latest".data)] := by
  refine ⟨fun a b h => rsplitColon_last h, fun s h => rsplitColon_no_colon h,
    by decide, by decide, by decide⟩

theorem rsplit_last_colon_spec_w :
    rsplitColon ("registry".data ++ ':' :: "5000/app".data) =
      some ("registry".data, "5000/app".data) ∧
    rsplitColon "redis".data = none :=
  ⟨rsplit_last_colon_spec.1 "registry".data "5000/app".data (by decide),
    rsplit_last_colon_spec.2.1 "redis".data (by decide)⟩

/-- C5: in replace mode, a service whose current tag contains a digit and is
not the literal `latest` is left alone: its iteration of the service loop
changes neither the document nor the change records, and a run over
services that are all pinned this way returns the document unchanged with
no records at all. -/
theorem update_versions_pinned_frame (cv : List (Str × Str)) :
    (∀ (st : List Str × List UVChange) (name image container tag : Str),
      rsplitColon image = some (container, tag) →
      tag.any Char.isDigit = true → tag ≠ "latest".data →
      update_step cv st (name, some image) = st) ∧
    (∀ (content : List Str) (services : List (Str × Option Str)),
      (∀ p ∈ services, ∀ img : Str, p.2 = some img →
        ∃ container tag, rsplitColon img = some (container, tag) ∧
          tag.any Char.isDigit = true ∧ tag ≠ "latest".data) →
      update_versions content services cv = (content, [])) := by
  have hstep : ∀ (st : List Str × List UVChange) (name image container tag : Str),
      rsplitColon image = some (container, tag) →
      tag.any Char.isDigit = true → tag ≠ "latest".data →
      update_step cv st (name, some image) = st := by
    intro st name image container tag hsplit hdigit hlat
    cases hlk : lookupA container cv with
    | none => simp [update_step, hsplit, hlk]
    | some ver =>
      by_cases hok : uvSentinelOk ver = true
      · by_cases hdeny : uvDenyTag tag = true
        · simp [update_step, hsplit, hlk, hok, hdeny]
        · simp [update_step, hsplit, hlk, hok, hdeny, hdigit, hlat]
      · simp [update_step, hsplit, hlk, hok]
  have hfold : ∀ services : List (Str × Option Str),
      (∀ p ∈ services, ∀ img : Str, p.2 = some img →
        ∃ container tag, rsplitColon img = some (container, tag) ∧
          tag.any Char.isDigit = true ∧ tag ≠ "latest".data) →
      ∀ st : List Str × List UVChange, services.foldl (update_step cv) st = st := by
    intro services
    induction services with
    | nil =>
      intro _ st
      rfl
    | cons p ps ih =>
      intro hall2 st
      obtain ⟨name, img?⟩ := p
      have hfirst : update_step cv st (name, img?) = st := by
        cases himg : img? with
        | none => rfl
        | some img =>
          obtain ⟨container, tag, hsplit, hdigit, hlat⟩ :=
            hall2 (name, img?) (List.mem_cons_self _ _) img (by rw [himg])
          exact hstep st name img container tag hsplit hdigit hlat
      rw [List.foldl_cons, hfirst]
      exact ih (fun q hq => hall2 q (List.mem_cons_of_mem _ hq)) st
  refine ⟨hstep, ?_⟩
  intro content services hall
  unfold update_versions
  exact hfold services hall (content, [])

theorem update_versions_pinned_frame_w :
    update_versions
        ["services:".data, "  cache:".data, "    image: redis:7.2.4".data]
        [("cache".data, some "redis:7.2.4".data)]
        [("redis".data, "7.4.0".data)] =
      (["services:".data, "  cache:".data, "    image: redis:7.2.4".data], []) := by
  refine (update_versions_pinned_frame _).2 _ _ ?_
  intro p hp img himg
  have hp' : p = ("cache".data, some "redis:7.2.4".data) := by simpa using hp
  subst hp'
  have himg' : img = "redis:7.2.4".data := by
    have := himg.symm
    injection this
  subst himg'
  exact ⟨"redis".data, "7.2.4".data, by decide, by decide, by decide⟩

/-- C1: evaluation of the replace pipeline at the claim's own scenario with
a quoted image value.  `update_versions` appends the change record
`{service: cache, old: qdrant/qdrant:latest, new: qdrant/qdrant:v1.9.0}`
but returns the document unchanged — the substitution pattern is built from
the YAML-unquoted image string and cannot match the quoted text — so
re-parsing the "rewritten" document still yields tag `latest` for
`qdrant/qdrant`, and the round-trip equation of the claim fails.  With an
unquoted value the same run rewrites the line and the round trip holds,
which is the evident intent. -/
theorem update_versions_quoted_roundtrip_bug :
    parseCompose
        ["services:".data, "  cache:".data,
          "    image: \"qdrant/qdrant:latest\"".data] =
      [("cache".data, some "qdrant/qdrant:latest".data)] ∧
    update_versions
        ["services:".data, "  cache:".data,
          "    image: \"qdrant/qdrant:latest\"".data]
        [("cache".data, some "qdrant/qdrant:latest".data)]
        [("qdrant/qdrant".data, "v1.9.0".data)] =
      (["services:".data, "  cache:".data,
          "    image: \"qdrant/qdrant:latest\"".data],
        [⟨"cache".data, "qdrant/qdrant:latest".data, "qdrant/qdrant:v1.9.0".data⟩]) ∧
    lookupA "qdrant/qdrant".data
        (extract_container_versions
          (update_versions
            ["services:".data, "  cache:".data,
              "    image: \"qdrant/qdrant:latest\"".data]
            [("cache".data, some "qdrant/qdrant:latest".data)]
            [("qdrant/qdrant".data, "v1.9.0".data)]).1) = some "latest".data ∧
    ("latest".data : Str) ≠ "v1.9.0".data ∧
    update_versions
        ["services:".data, "  cache:".data, "    image: qdrant/qdrant:latest".data]
        [("cache".data, some "qdrant/qdrant:latest".data)]
        [("qdrant/qdrant".data, "v1.9.0".data)] =
      (["services:".data, "  cache:".data,
          "    image: qdrant/qdrant:v1.9.0".data],
        [⟨"cache".data, "qdrant/qdrant:latest".data, "qdrant/qdrant:v1.9.0".data⟩]) ∧
    lookupA "qdrant/qdrant".data
        (extract_container_versions
          ["services:".data, "  cache:".data,
            "    image: qdrant/qdrant:v1.9.0".data]) = some "v1.9.0".data := by
  refine ⟨by decide, by decide, by decide, by decide, by decide, by decide⟩

theorem vdcImageMatch_not_comment {l g1 img : Str}
    (h : vdcImageMatch l = some (g1, img)) : vdcVersionComment l = false := by
  obtain ⟨_, _, htake, _, _⟩ := vdcImageMatch_inv h
  unfold vdcVersionComment
  have hne : (spanP pyWs l).2.take 10 ≠ "# Version:".data := by
    intro hh
    have h6 : (spanP pyWs l).2.take 6 = ("# Version:".data).take 6 := by
      rw [← hh, List.take_take]
      norm_num
    rw [htake] at h6
    exact absurd h6 (by decide)
  simp [hne]

/-- C3 counterexample: the claim's sentinel set is wrong for the combined
script's annotate path (version_docker_compose.py), which excludes only
`unknown`/`UNKNOWN`: a resolved tag `latest` is usable there, so a
`# Version: latest` comment IS emitted, while the annotate-only script
treats `latest` as unusable and passes the lines through unchanged. -/
theorem vdc_annotate_latest_emits_cx :
    (add_version_comments_and_update_tags
        "services:\n  cache:\n    image: qdrant/qdrant:latest".data
        [("qdrant/qdrant".data, "latest".data)] false true).1 =
      "services:\n  cache:\n    # Version: latest\n    image: qdrant/qdrant:latest".data ∧
    ("services:\n  cache:\n    # Version: latest\n    image: qdrant/qdrant:latest".data :
        Str) ≠
      "services:\n  cache:\n    image: qdrant/qdrant:latest".data ∧
    vdcUsable "latest".data = true ∧
    avcUsable "latest".data = false ∧
    (add_version_comments ["    image: qdrant/qdrant:latest\n".data]
        [("qdrant/qdrant".data, "latest".data)]).1 =
      ["    image: qdrant/qdrant:latest\n".data] := by
  refine ⟨by decide, by decide, by decide, by decide, by decide⟩

/-- C3 (amended): in annotate mode a `# Version: <tag>` comment is emitted
immediately before an image line exactly when the mapping yields a usable
value for the image's repository, but the two annotate paths disagree on
the sentinels: the annotate-only script (add_version_comments.py) treats
`unknown`, `latest` (and the unrepresentable `None`) as unusable and passes
the lines through unchanged, while the combined script's annotate mode
(version_docker_compose.py) excludes only `unknown`/`UNKNOWN`, so a
resolved tag `latest` does get a `# Version: latest` comment there. -/
theorem annotate_emit_spec :
    (∀ (lines : List Str) (cv : List (Str × Str)),
      (add_version_comments lines cv).1 = lines.flatMap (avcEmit cv)) ∧
    (∀ (cv : List (Str × Str)) (l ind img : Str),
      avcImageMatch l = some (ind, img) →
      avcEmit cv l =
        if avcUsable (avcVersionOf cv (avcContainer img)) then
          [avcComment ind (avcVersionOf cv (avcContainer img)), l]
        else [l]) ∧
    (∀ (cv : List (Str × Str)) (l : Str),
      avcImageMatch l = none → avcEmit cv l = [l]) ∧
    (∀ (cv : List (Str × Str)) (cont : Str),
      avcUsable (avcVersionOf cv cont) = true ↔
        ∃ v, lookupA cont cv = some v ∧ v ≠ "unknown".data ∧ v ≠ "latest".data) ∧
    (∀ (cv : List (Str × Str)) (se : Bool) (cs : Option Str) (lines : List Str),
      (vdcGo cv false se cs lines).1 = lines.flatMap (vdcEmit cv false se)) ∧
    (∀ (cv : List (Str × Str)) (se : Bool) (l g1 img : Str),
      vdcImageMatch l = some (g1, img) →
      vdcEmit cv false se l =
        match lookupA (vdcSplit img).1 cv with
        | some v =>
          if vdcUsable v then [vdcIndent g1 ++ "# Version: ".data ++ v, l] else [l]
        | none => [l]) ∧
    (∀ v : Str, vdcUsable v = true ↔ v ≠ "unknown".data ∧ v ≠ "UNKNOWN".data) := by
  refine ⟨fun lines cv => (avcEmit_spec lines cv).1,
    fun cv l ind img h => (avcEmit_spec [] cv).2.1 l ind img h,
    fun cv l h => (avcEmit_spec [] cv).2.2.1 l h,
    fun cv cont => (avcEmit_spec [] cv).2.2.2 cont,
    fun cv se cs lines => vdcGo_fst cv false se cs lines, ?_, ?_⟩
  · intro cv se l g1 img him
    have hvc := vdcImageMatch_not_comment him
    cases hlk : lookupA (vdcSplit img).1 cv with
    | none => simp [vdcEmit, hvc, him, hlk]
    | some v =>
      by_cases hu : vdcUsable v = true
      · simp [vdcEmit, hvc, him, hlk, hu]
      · simp [vdcEmit, hvc, him, hlk, hu]
  · intro v
    unfold vdcUsable
    constructor
    · intro h
      refine ⟨?_, ?_⟩
      · intro he
        subst he
        simp at h
      · intro he
        subst he
        simp at h
    · rintro ⟨h1, h2⟩
      simp [h1, h2]

theorem annotate_emit_spec_w :
    avcEmit [("qdrant/qdrant".data, "latest".data)]
        "    image: qdrant/qdrant:latest\n".data =
      ["    image: qdrant/qdrant:latest\n".data] ∧
    vdcEmit [("qdrant/qdrant".data, "latest".data)] false true
        "    image: qdrant/qdrant:latest".data =
      ["    # Version: latest".data, "    image: qdrant/qdrant:latest".data] := by
  constructor
  · have h := annotate_emit_spec.2.1 [("qdrant/qdrant".data, "latest".data)]
      "    image: qdrant/qdrant:latest\n".data "    ".data
      "qdrant/qdrant:latest".data (by decide)
    rw [h]
    decide
  · have h := annotate_emit_spec.2.2.2.2.2.1 [("qdrant/qdrant".data, "latest".data)]
      true "    image: qdrant/qdrant:latest".data "    image: ".data
      "qdrant/qdrant:latest".data (by decide)
    rw [h]
    decide

theorem imageAt_inv {old s consumed restAfter : Str}
    (h : imageAt old s = some (consumed, restAfter)) :
    s = consumed ++ old ++ restAfter := by
  unfold imageAt at h
  by_cases h1 : s.take 6 = "image:".data
  · rw [if_pos h1] at h
    by_cases h2 : (spanP pyWs (s.drop 6)).1.isEmpty = true
    · rw [if_pos h2] at h
      exact absurd h (by simp)
    · rw [if_neg h2] at h
      by_cases h3 : (spanP pyWs (s.drop 6)).2.take old.length = old
      · rw [if_pos h3] at h
        by_cases h4 : wsBoundary ((spanP pyWs (s.drop 6)).2.drop old.length) = true
        · rw [if_pos h4] at h
          have h5 := Option.some.inj h
          injection h5 with hc hr
          subst hc
          subst hr
          have hs1 : s = "image:".data ++ s.drop 6 := by
            conv_lhs => rw [← List.take_append_drop 6 s]
            rw [h1]
          have hs2 : s.drop 6 =
              (spanP pyWs (s.drop 6)).1 ++ (spanP pyWs (s.drop 6)).2 :=
            spanP_split pyWs (s.drop 6)
          have hs3 : (spanP pyWs (s.drop 6)).2 =
              old ++ (spanP pyWs (s.drop 6)).2.drop old.length := by
            conv_lhs =>
              rw [← List.take_append_drop old.length (spanP pyWs (s.drop 6)).2]
            rw [h3]
          have hgoal : s = "image:".data ++ ((spanP pyWs (s.drop 6)).1 ++
              (old ++ (spanP pyWs (s.drop 6)).2.drop old.length)) := by
            conv_lhs => rw [hs1]
            conv_lhs => rw [hs2]
            conv_lhs => rw [hs3]
          exact hgoal.trans (by simp [List.append_assoc])
        · rw [if_neg h4] at h
          exact absurd h (by simp)
      · rw [if_neg h3] at h
        exact absurd h (by simp)
  · rw [if_neg h1] at h
    exact absurd h (by simp)

theorem subLineGo_frame (old new : Str) :
    ∀ (prevWs : Bool) (l : Str),
      subLineGo old new prevWs l = l ∨
      ∃ pre mid rest, l = pre ++ (mid ++ (old ++ rest)) ∧
        subLineGo old new prevWs l = pre ++ (mid ++ (new ++ rest)) := by
  intro prevWs l
  induction l generalizing prevWs with
  | nil => left; rfl
  | cons c rest ih =>
    by_cases hw : prevWs = true
    · subst hw
      cases hm : imageAt old (c :: rest) with
      | some p =>
        obtain ⟨consumed, restAfter⟩ := p
        right
        refine ⟨[], consumed, restAfter, ?_, ?_⟩
        · simpa using imageAt_inv hm
        · show subLineGo old new true (c :: rest) = [] ++ (consumed ++ (new ++ restAfter))
          simp [subLineGo, hm]
      | none =>
        have hstep : subLineGo old new true (c :: rest) =
            c :: subLineGo old new (pyWs c) rest := by
          simp [subLineGo, hm]
        rcases ih (pyWs c) with h1 | ⟨pre, mid, r2, heq, hres⟩
        · left
          rw [hstep, h1]
        · right
          refine ⟨c :: pre, mid, r2, ?_, ?_⟩
          · rw [heq]
            simp
          · rw [hstep, hres]
            simp
    · have hw' : prevWs = false := by
        simpa using hw
      subst hw'
      have hstep : subLineGo old new false (c :: rest) =
          c :: subLineGo old new (pyWs c) rest := by
        simp [subLineGo]
      rcases ih (pyWs c) with h1 | ⟨pre, mid, r2, heq, hres⟩
      · left
        rw [hstep, h1]
      · right
        refine ⟨c :: pre, mid, r2, ?_, ?_⟩
        · rw [heq]
          simp
        · rw [hstep, hres]
          simp

/-- C8 (amended): the annotate-only script preserves every input line
byte-for-byte and in order, inserting only whole `# Version:` comment
lines; the replace rewriter (update_compose_versions.py) maps each line
either to itself or to the same line with the new image reference
substituted for the old one at a match of its pattern.  But the claim's
scope is wrong: the substitution pattern `(\s+image:\s+)<image>(\s|$)` is
unanchored, so any whitespace-preceded `image:` matches and a
commented-out `# image: <old>` line of an updated service is rewritten
too; and the combined script rejoins the document with `'\n'.join`,
dropping the input's final newline even when no service is updated. -/
theorem rewriter_frame_spec :
    (∀ (lines : List Str) (cv : List (Str × Str)),
      (add_version_comments lines cv).1 = lines.flatMap (avcEmit cv)) ∧
    (∀ (cv : List (Str × Str)) (l : Str),
      avcEmit cv l = [l] ∨ ∃ c, avcEmit cv l = [c, l]) ∧
    (∀ (old new : Str) (lines : List Str),
      subImage old new lines = lines.map (subImageLine old new)) ∧
    (∀ (old new l : Str), subImageLine old new l = l ∨
      ∃ pre mid rest, l = pre ++ (mid ++ (old ++ rest)) ∧
        subImageLine old new l = pre ++ (mid ++ (new ++ rest))) := by
  refine ⟨fun lines cv => avcGo_fst cv none lines, ?_, fun _ _ _ => rfl,
    fun old new l => subLineGo_frame old new true l⟩
  intro cv l
  unfold avcEmit
  cases avcImageMatch l with
  | none => left; rfl
  | some p =>
    obtain ⟨ind, img⟩ := p
    by_cases hu : avcUsable (avcVersionOf cv (avcContainer img)) = true
    · right
      refine ⟨avcComment ind (avcVersionOf cv (avcContainer img)), ?_⟩
      simp [hu]
    · left
      simp [hu]

/-- C8 counterexample: with service `cache` pinned to `redis:latest` and a
resolved version `7.4.0`, the replace rewriter also rewrites the
commented-out line `    # image: redis:latest` to `    # image: redis:7.4.0`
— a changed line that is neither an inserted comment nor the image line of
an updated service; and the combined script maps `services:\n` to
`services:`, dropping the final newline with no service updated. -/
theorem rewrite_frame_violations_cx :
    parseCompose
        ["services:".data, "  cache:".data, "    image: redis:latest".data,
          "    # image: redis:latest".data] =
      [("cache".data, some "redis:latest".data)] ∧
    (update_versions
        ["services:".data, "  cache:".data, "    image: redis:latest".data,
          "    # image: redis:latest".data]
        [("cache".data, some "redis:latest".data)]
        [("redis".data, "7.4.0".data)]).1 =
      ["services:".data, "  cache:".data, "    image: redis:7.4.0".data,
        "    # image: redis:7.4.0".data] ∧
    ("    # image: redis:7.4.0".data : Str) ≠ "    # image: redis:latest".data ∧
    (add_version_comments_and_update_tags "services:\n".data [] false true).1 =
      "services:".data ∧
    ("services:".data : Str) ≠ "services:\n".data := by
  refine ⟨by decide, by decide, by decide, by decide, by decide⟩
